import Mathlib

/-!
Verification development for the hierarchical aggregation tree
(crates/turbo-tasks-memory/src/aggregation_tree): a shallow embedding of
TopTree (top_tree.rs) and the reference handles (inner_refs.rs), together
with proofs about upward propagation, the multiset of upper links, the
root-info query and the depth/locking discipline.

Nodes are identified by the pair (item, depth): the node factory
(an external collaborator in the spec) returns the canonical tree for each
such pair, so pointer identity of an Arc TopTree corresponds to this pair.
The tree state is a total function from node ids to per-node state; nodes
are created lazily with default info and no uppers, which the total
function models directly.

Recursion through upper links is modelled with explicit fuel: in the code
the recursion terminates because the depth strictly decreases along upper
links and is bounded; here each operation passes fuel that is proved (and,
on reachable states, is) sufficient.
-/

set_option autoImplicit false
set_option linter.unusedSectionVars false

universe u v

/-- Node identity: the canonical (item, depth) pair handed out by the node
factory.  The depth field mirrors the immutable field TopTree.depth. -/
structure NodeId where
  item : Nat
  depth : Nat
  deriving DecidableEq

/-- Result flag of merge_root_info, mirroring core::ops::ControlFlow with
unit payloads as used in get_root_info. -/
inductive MFlow where
  | cont : MFlow
  | brk : MFlow
  deriving DecidableEq

/-- The aggregation policy interface (trait AggregationContext), with the
mutable-reference style of the Rust methods turned into explicit
state-passing: apply_change returns the new info together with the change
to forward (None stops propagation), and merge_root_info returns the new
accumulator together with the continue/break flag. -/
structure AggregationContext (Info Change RootInfo RootInfoType : Type u) where
  dflt : Info
  apply_change : Info → Change → Info × Option Change
  info_to_add_change : Info → Option Change
  info_to_remove_change : Info → Option Change
  info_to_root_info : Info → RootInfoType → RootInfo
  new_root_info : RootInfoType → RootInfo
  merge_root_info : RootInfo → RootInfo → RootInfo × MFlow

namespace CountHashSet

/-! Modelled from the spec: the type CountHashSet (crate::count_hash_set)
is used by top_tree.rs but its source is not part of this tree; the spec
describes it as a deduplicating counted multiset where add returns true
exactly on the 0 to 1 transition, remove returns true exactly on the
1 to 0 transition and is a no-op when the count is already 0, and
iteration yields each distinct element exactly once.  It is modelled as an
association list from elements to positive counts. -/

variable {α : Type u} [DecidableEq α]

/-- Count of an element: the count stored at its first entry, 0 if absent. -/
def count : List (α × Nat) → α → Nat
  | [], _ => 0
  | (y, c) :: rest, x => if y = x then c else count rest x

/-- Modelled from the spec: add increments the element's count, returning
true exactly when the element was absent (the 0 to 1 transition). -/
def add : List (α × Nat) → α → List (α × Nat) × Bool
  | [], x => ([(x, 1)], true)
  | (y, c) :: rest, x =>
    if y = x then ((y, c + 1) :: rest, false)
    else
      let r := add rest x
      ((y, c) :: r.1, r.2)

/-- Modelled from the spec: remove decrements the element's count,
returning true exactly on the 1 to 0 transition (the entry is dropped),
and is a no-op returning false when the element is absent. -/
def remove : List (α × Nat) → α → List (α × Nat) × Bool
  | [], _ => ([], false)
  | (y, c) :: rest, x =>
    if y = x then
      (if c ≤ 1 then (rest, true) else ((y, c - 1) :: rest, false))
    else
      let r := remove rest x
      ((y, c) :: r.1, r.2)

/-- Modelled from the spec: iteration yields each distinct element exactly
once, regardless of its count. -/
def iter (s : List (α × Nat)) : List α :=
  s.map Prod.fst

theorem iter_nil : iter ([] : List (α × Nat)) = [] := rfl

theorem iter_cons (y : α) (c : Nat) (rest : List (α × Nat)) :
    iter ((y, c) :: rest) = y :: iter rest := rfl

theorem count_eq_zero_of_not_mem (s : List (α × Nat)) (x : α)
    (h : x ∉ iter s) : count s x = 0 := by
  induction s with
  | nil => rfl
  | cons e rest ih =>
    obtain ⟨y, c⟩ := e
    rw [iter_cons, List.mem_cons] at h
    push_neg at h
    have hy : ¬ (y = x) := fun hh => h.1 hh.symm
    simp [count, hy, ih h.2]

theorem add_snd_iff (s : List (α × Nat)) (x : α)
    (hpos : ∀ e ∈ s, 0 < e.2) :
    (add s x).2 = true ↔ count s x = 0 := by
  induction s with
  | nil => simp [add, count]
  | cons e rest ih =>
    obtain ⟨y, c⟩ := e
    have hc : 0 < c := hpos (y, c) (by simp)
    have hrest : ∀ e ∈ rest, 0 < e.2 := fun e he => hpos e (by simp [he])
    by_cases h : y = x
    · simp [add, count, h]
      omega
    · simp [add, count, h, ih hrest]

theorem count_add_self (s : List (α × Nat)) (x : α) :
    count (add s x).1 x = count s x + 1 := by
  induction s with
  | nil => simp [add, count]
  | cons e rest ih =>
    obtain ⟨y, c⟩ := e
    by_cases h : y = x
    · simp [add, count, h]
    · simp [add, count, h, ih]

theorem count_add_other (s : List (α × Nat)) (x z : α) (h : z ≠ x) :
    count (add s x).1 z = count s z := by
  induction s with
  | nil =>
    have hx : ¬ (x = z) := fun hh => h hh.symm
    simp [add, count, hx]
  | cons e rest ih =>
    obtain ⟨y, c⟩ := e
    by_cases hy : y = x
    · have hx : ¬ (x = z) := fun hh => h hh.symm
      simp [add, count, hy, hx]
    · simp [add, count, hy, ih]

theorem remove_snd_iff (s : List (α × Nat)) (x : α)
    (hpos : ∀ e ∈ s, 0 < e.2) :
    (remove s x).2 = true ↔ count s x = 1 := by
  induction s with
  | nil => simp [remove, count]
  | cons e rest ih =>
    obtain ⟨y, c⟩ := e
    have hc : 0 < c := hpos (y, c) (by simp)
    have hrest : ∀ e ∈ rest, 0 < e.2 := fun e he => hpos e (by simp [he])
    by_cases h : y = x
    · by_cases hle : c ≤ 1 <;> simp [remove, count, h, hle] <;> omega
    · simp [remove, count, h, ih hrest]

theorem count_remove_self (s : List (α × Nat)) (x : α)
    (hnd : (iter s).Nodup) :
    count (remove s x).1 x = count s x - 1 := by
  induction s with
  | nil => simp [remove, count]
  | cons e rest ih =>
    obtain ⟨y, c⟩ := e
    rw [iter_cons, List.nodup_cons] at hnd
    by_cases h : y = x
    · by_cases hle : c ≤ 1
      · have hnm : x ∉ iter rest := by
          rw [← h]; exact hnd.1
        simp [remove, count, h, hle, count_eq_zero_of_not_mem rest x hnm]
      · simp [remove, count, h, hle]
    · simp [remove, count, h, ih hnd.2]

theorem count_remove_other (s : List (α × Nat)) (x z : α) (h : z ≠ x) :
    count (remove s x).1 z = count s z := by
  induction s with
  | nil => simp [remove, count]
  | cons e rest ih =>
    obtain ⟨y, c⟩ := e
    by_cases hy : y = x
    · have hx : ¬ (x = z) := fun hh => h hh.symm
      by_cases hle : c ≤ 1 <;>
        simp [remove, count, hy, hle, hx, count_eq_zero_of_not_mem]
    · simp [remove, count, hy, ih]

theorem remove_of_zero (s : List (α × Nat)) (x : α)
    (hpos : ∀ e ∈ s, 0 < e.2) (h : count s x = 0) :
    (remove s x).1 = s := by
  induction s with
  | nil => rfl
  | cons e rest ih =>
    obtain ⟨y, c⟩ := e
    have hc : 0 < c := hpos (y, c) (by simp)
    have hrest : ∀ e ∈ rest, 0 < e.2 := fun e he => hpos e (by simp [he])
    by_cases hy : y = x
    · rw [count, if_pos hy] at h
      omega
    · rw [count, if_neg hy] at h
      simp [remove, hy, ih hrest h]

theorem remove_add_cancel (s : List (α × Nat)) (x : α)
    (hpos : ∀ e ∈ s, 0 < e.2) :
    (remove (add s x).1 x).1 = s := by
  induction s with
  | nil => simp [add, remove]
  | cons e rest ih =>
    obtain ⟨y, c⟩ := e
    have hc : 0 < c := hpos (y, c) (by simp)
    have hrest : ∀ e ∈ rest, 0 < e.2 := fun e he => hpos e (by simp [he])
    by_cases hy : y = x
    · have hgt : ¬ c + 1 ≤ 1 := by omega
      simp [add, remove, hy, hgt]
    · simp [add, remove, hy, ih hrest]

theorem iter_add_of_pos (s : List (α × Nat)) (x : α) (h : 0 < count s x) :
    iter (add s x).1 = iter s := by
  induction s with
  | nil => simp [count] at h
  | cons e rest ih =>
    obtain ⟨y, c⟩ := e
    by_cases hy : y = x
    · simp [add, iter, hy]
    · rw [count, if_neg hy] at h
      simp [add, iter, hy]
      rw [show (add rest x).1.map Prod.fst = iter (add rest x).1 from rfl,
        ih h]
      rfl

theorem iter_add_of_zero (s : List (α × Nat)) (x : α)
    (hpos : ∀ e ∈ s, 0 < e.2) (h : count s x = 0) :
    iter (add s x).1 = iter s ++ [x] := by
  induction s with
  | nil => simp [add, iter]
  | cons e rest ih =>
    obtain ⟨y, c⟩ := e
    have hc : 0 < c := hpos (y, c) (by simp)
    have hrest : ∀ e ∈ rest, 0 < e.2 := fun e he => hpos e (by simp [he])
    by_cases hy : y = x
    · rw [count, if_pos hy] at h
      omega
    · rw [count, if_neg hy] at h
      simp [add, iter, hy]
      rw [show (add rest x).1.map Prod.fst = iter (add rest x).1 from rfl,
        ih hrest h]
      rfl

theorem iter_remove_of_ge_two (s : List (α × Nat)) (x : α)
    (h : 2 ≤ count s x) :
    iter (remove s x).1 = iter s := by
  induction s with
  | nil => simp [count] at h
  | cons e rest ih =>
    obtain ⟨y, c⟩ := e
    by_cases hy : y = x
    · rw [count, if_pos hy] at h
      have hgt : ¬ c ≤ 1 := by omega
      simp [remove, iter, hy, hgt]
    · rw [count, if_neg hy] at h
      simp [remove, iter, hy]
      rw [show (remove rest x).1.map Prod.fst = iter (remove rest x).1 from
        rfl, ih h]
      rfl

theorem mem_iter_iff_pos (s : List (α × Nat)) (x : α)
    (hpos : ∀ e ∈ s, 0 < e.2) :
    x ∈ iter s ↔ 0 < count s x := by
  induction s with
  | nil => simp [iter, count]
  | cons e rest ih =>
    obtain ⟨y, c⟩ := e
    have hc : 0 < c := hpos (y, c) (by simp)
    have hrest : ∀ e ∈ rest, 0 < e.2 := fun e he => hpos e (by simp [he])
    by_cases hy : y = x
    · simp [iter_cons, count, hy, hc]
    · have hxy : ¬ (x = y) := fun hh => hy hh.symm
      rw [iter_cons, List.mem_cons, count, if_neg hy]
      simp [hxy, ih hrest]

theorem pos_add (s : List (α × Nat)) (x : α)
    (hpos : ∀ e ∈ s, 0 < e.2) :
    ∀ e ∈ (add s x).1, 0 < e.2 := by
  induction s with
  | nil => simp [add]
  | cons e rest ih =>
    obtain ⟨y, c⟩ := e
    have hc : 0 < c := hpos (y, c) (by simp)
    have hrest : ∀ e ∈ rest, 0 < e.2 := fun e he => hpos e (by simp [he])
    by_cases hy : y = x
    · intro e he
      simp [add, hy] at he
      rcases he with he | he
      · simp [he]
      · exact hrest e he
    · intro e he
      simp [add, hy] at he
      rcases he with he | he
      · simp [he, hc]
      · exact ih hrest e he

theorem pos_remove (s : List (α × Nat)) (x : α)
    (hpos : ∀ e ∈ s, 0 < e.2) :
    ∀ e ∈ (remove s x).1, 0 < e.2 := by
  induction s with
  | nil => simp [remove]
  | cons e rest ih =>
    obtain ⟨y, c⟩ := e
    have hc : 0 < c := hpos (y, c) (by simp)
    have hrest : ∀ e ∈ rest, 0 < e.2 := fun e he => hpos e (by simp [he])
    by_cases hy : y = x
    · by_cases hle : c ≤ 1
      · intro e he
        simp [remove, hy, hle] at he
        exact hrest e he
      · intro e he
        simp [remove, hy, hle] at he
        rcases he with he | he
        · rw [he]; simp; omega
        · exact hrest e he
    · intro e he
      simp [remove, hy] at he
      rcases he with he | he
      · simp [he, hc]
      · exact ih hrest e he

theorem nodup_add (s : List (α × Nat)) (x : α)
    (hpos : ∀ e ∈ s, 0 < e.2) (h : (iter s).Nodup) :
    (iter (add s x).1).Nodup := by
  by_cases hx : 0 < count s x
  · rw [iter_add_of_pos s x hx]; exact h
  · have hz : count s x = 0 := by omega
    rw [iter_add_of_zero s x hpos hz]
    rw [List.nodup_append]
    refine ⟨h, List.nodup_singleton x, ?_⟩
    intro a ha hb
    simp at hb
    subst hb
    have := (mem_iter_iff_pos s a hpos).1 ha
    omega

theorem iter_remove_sublist (s : List (α × Nat)) (x : α) :
    (iter (remove s x).1).Sublist (iter s) := by
  induction s with
  | nil => simp [remove, iter]
  | cons e rest ih =>
    obtain ⟨y, c⟩ := e
    by_cases hy : y = x
    · by_cases hle : c ≤ 1
      · rw [show (remove ((y, c) :: rest) x).1 = rest by
          simp [remove, hy, hle], iter_cons]
        exact (List.Sublist.refl _).cons y
      · rw [show (remove ((y, c) :: rest) x).1 = (y, c - 1) :: rest by
          simp [remove, hy, hle], iter_cons, iter_cons]
    · rw [show (remove ((y, c) :: rest) x).1 = (y, c) :: (remove rest x).1 by
        simp [remove, hy], iter_cons, iter_cons]
      exact ih.cons₂ y

theorem nodup_remove (s : List (α × Nat)) (x : α)
    (h : (iter s).Nodup) :
    (iter (remove s x).1).Nodup :=
  (iter_remove_sublist s x).nodup h

end CountHashSet

/-- Per-node state (struct TopTreeState): the policy info and the counted
multiset of upper links. -/
structure TopTreeState (Info : Type u) where
  data : Info
  upper : List (NodeId × Nat)

/-- The state of the whole forest of trees: the canonical node for every
(item, depth) pair.  Nodes are created lazily by the factory with default
info and no uppers, which the total function models directly. -/
def TreeState (Info : Type u) : Type u :=
  NodeId → TopTreeState Info

/-- Initial forest: every node is as built by TopTree::new for its depth,
holding the default info and an empty upper set. -/
def initState {Info Change RootInfo RootInfoType : Type u}
    (ctx : AggregationContext Info Change RootInfo RootInfoType) :
    TreeState Info :=
  fun _ => ⟨ctx.dflt, []⟩

namespace TopTree

variable {Info Change RootInfo RootInfoType : Type u}

/-- TopTree::child_change: lock the node, apply the change to its own info
through the policy, and forward the change returned by apply_change (when
some) to every currently linked upper, still under the lock.  The fuel
argument makes the upward recursion (which in the code terminates because
depth strictly decreases along upper links) structurally well-founded. -/
def child_change (ctx : AggregationContext Info Change RootInfo RootInfoType) :
    Nat → TreeState Info → NodeId → Change → TreeState Info
  | 0, s, _, _ => s
  | fuel + 1, s, n, change =>
    match ctx.apply_change (s n).data change with
    | (d', none) => Function.update s n ⟨d', (s n).upper⟩
    | (d', some fwd) =>
      (CountHashSet.iter (s n).upper).foldl
        (fun t u => child_change ctx fuel t u fwd)
        (Function.update s n ⟨d', (s n).upper⟩)

/-- TopTree::add_upper: lock the node, add the upper reference to the
multiset, and when this is the first time the upper is linked, seed it
with info_to_add_change of the node's current info. -/
def add_upper (ctx : AggregationContext Info Change RootInfo RootInfoType)
    (fuel : Nat) (s : TreeState Info) (n upper : NodeId) : TreeState Info :=
  match CountHashSet.add (s n).upper upper with
  | (l', true) =>
    match ctx.info_to_add_change (s n).data with
    | some change =>
      child_change ctx fuel (Function.update s n ⟨(s n).data, l'⟩) upper change
    | none => Function.update s n ⟨(s n).data, l'⟩
  | (l', false) => Function.update s n ⟨(s n).data, l'⟩

/-- TopTree::remove_upper: lock the node, remove the upper reference from
the multiset, and on the last-removal transition forward
info_to_remove_change of the node's current info to the removed upper. -/
def remove_upper (ctx : AggregationContext Info Change RootInfo RootInfoType)
    (fuel : Nat) (s : TreeState Info) (n upper : NodeId) : TreeState Info :=
  match CountHashSet.remove (s n).upper upper with
  | (l', true) =>
    match ctx.info_to_remove_change (s n).data with
    | some change =>
      child_change ctx fuel (Function.update s n ⟨(s n).data, l'⟩) upper change
    | none => Function.update s n ⟨(s n).data, l'⟩
  | (l', false) => Function.update s n ⟨(s n).data, l'⟩

/-- TopTree::add_child_of_child: obtain (via the factory) the tree of the
child at depth self.depth + 1 and add self as one of its uppers. -/
def add_child_of_child
    (ctx : AggregationContext Info Change RootInfo RootInfoType)
    (s : TreeState Info) (n : NodeId) (child : Nat) : TreeState Info :=
  add_upper ctx (n.depth + 1) s ⟨child, n.depth + 1⟩ n

/-- TopTree::remove_child_of_child: the child's tree at depth
self.depth + 1 drops self from its uppers. -/
def remove_child_of_child
    (ctx : AggregationContext Info Change RootInfo RootInfoType)
    (s : TreeState Info) (n : NodeId) (child : Nat) : TreeState Info :=
  remove_upper ctx (n.depth + 1) s ⟨child, n.depth + 1⟩ n

/-- TopTree::add_children_of_child: add_child_of_child for each child in
order. -/
def add_children_of_child
    (ctx : AggregationContext Info Change RootInfo RootInfoType)
    (s : TreeState Info) (n : NodeId) (children : List Nat) : TreeState Info :=
  children.foldl (fun t c => add_child_of_child ctx t n c) s

/-- The loop inside get_root_info: merge each upper's answer into the
accumulator, stopping as soon as merge_root_info signals break. -/
def merge_loop (ctx : AggregationContext Info Change RootInfo RootInfoType)
    (g : NodeId → RootInfo) : List NodeId → RootInfo → RootInfo
  | [], acc => acc
  | u :: rest, acc =>
    match ctx.merge_root_info acc (g u) with
    | (acc', MFlow.brk) => acc'
    | (acc', MFlow.cont) => merge_loop ctx g rest acc'

/-- TopTree::get_root_info: at depth 0 the node is the root and converts
its own info; at higher depths it merges the recursively obtained answers
of its uppers, with early termination on break. -/
def get_root_info (ctx : AggregationContext Info Change RootInfo RootInfoType) :
    Nat → TreeState Info → NodeId → RootInfoType → RootInfo
  | 0, _, _, t => ctx.new_root_info t
  | fuel + 1, s, n, t =>
    if n.depth = 0 then ctx.info_to_root_info ((s n).data) t
    else
      merge_loop ctx (fun u => get_root_info ctx fuel s u t)
        (CountHashSet.iter (s n).upper) (ctx.new_root_info t)

end TopTree

/-- Structural mutation operations driven by the engine: a child edge is
added or removed under the node (p, d). -/
inductive Op where
  | addChild (p : Nat) (d : Nat) (c : Nat) : Op
  | removeChild (p : Nat) (d : Nat) (c : Nat) : Op
  deriving DecidableEq

def runOp {Info Change RootInfo RootInfoType : Type u}
    (ctx : AggregationContext Info Change RootInfo RootInfoType)
    (s : TreeState Info) : Op → TreeState Info
  | Op.addChild p d c => TopTree.add_child_of_child ctx s ⟨p, d⟩ c
  | Op.removeChild p d c => TopTree.remove_child_of_child ctx s ⟨p, d⟩ c

def run {Info Change RootInfo RootInfoType : Type u}
    (ctx : AggregationContext Info Change RootInfo RootInfoType)
    (ops : List Op) (s : TreeState Info) : TreeState Info :=
  ops.foldl (runOp ctx) s

/-- The child-counting aggregation policy: the info of a node is the
number of live structural edges in the layers below it (counted along
paths); every change is an integer delta which is applied additively and
forwarded unchanged, and a newly linked or unlinked child contributes its
own info plus one (itself), respectively the exact inverse. -/
def countCtx : AggregationContext Int Int Int Unit where
  dflt := 0
  apply_change := fun i c => (i + c, some c)
  info_to_add_change := fun i => some (i + 1)
  info_to_remove_change := fun i => some (-(i + 1))
  info_to_root_info := fun i _ => i
  new_root_info := fun _ => 0
  merge_root_info := fun a b => (a + b, MFlow.cont)

section FrameLemmas

variable {Info Change RootInfo RootInfoType : Type u}
variable (ctx : AggregationContext Info Change RootInfo RootInfoType)

/-- child_change never modifies any node's upper multiset: propagation
only rewrites info fields. -/
theorem child_change_upper :
    ∀ (fuel : Nat) (s : TreeState Info) (n : NodeId) (ch : Change)
      (m : NodeId),
      (TopTree.child_change ctx fuel s n ch m).upper = (s m).upper := by
  intro fuel
  induction fuel with
  | zero => intro s n ch m; rfl
  | succ f ih =>
    have hfold : ∀ (c' : Change) (l : List NodeId) (t : TreeState Info)
        (m : NodeId),
        ((l.foldl (fun t u => TopTree.child_change ctx f t u c') t) m).upper
          = (t m).upper := by
      intro c' l
      induction l with
      | nil => intro t m; rfl
      | cons u rest ihl => intro t m; rw [List.foldl_cons, ihl, ih]
    intro s n ch m
    rw [TopTree.child_change]
    rcases h : ctx.apply_change (s n).data ch with ⟨d', fwd⟩
    rcases fwd with _ | c'
    · by_cases hm : m = n
      · subst hm; simp
      · simp [Function.update_noteq hm]
    · rw [hfold]
      by_cases hm : m = n
      · subst hm; simp
      · simp [Function.update_noteq hm]

end FrameLemmas

/-- C10: for every depth d, a freshly created node, as TopTree::new
produces it lazily through the factory in the initial forest, has its
depth equal to d, its info equal to the policy's default value, and an
empty uppers multiset. -/
theorem freshly_created_node_default {Info Change RootInfo RootInfoType : Type u}
    (ctx : AggregationContext Info Change RootInfo RootInfoType)
    (i d : Nat) :
    (NodeId.mk i d).depth = d ∧
    (initState ctx ⟨i, d⟩).data = ctx.dflt ∧
    (initState ctx ⟨i, d⟩).upper = [] :=
  ⟨rfl, rfl, rfl⟩

/-- Reference handle to a parent TopTree (struct TopRef).  The canonical
node instance for each (item, depth) pair is address-stable, so pointer
identity of the Arc is modelled by the NodeId. -/
structure TopRef where
  upper : NodeId
  deriving DecidableEq

/-- impl PartialEq for TopRef: Arc::ptr_eq on the referenced parent. -/
instance : BEq TopRef :=
  ⟨fun a b => a.upper == b.upper⟩

/-- impl Hash for TopRef: the hash of the parent's address, modelled as an
arbitrary hasher applied to the parent's identity. -/
def TopRef.hashWith (h : NodeId → Nat) (r : TopRef) : Nat :=
  h r.upper

/-- Reference handle to a parent BottomTree (struct BottomRef); the
BottomTree type itself is outside this tree, so its identity is modelled
as an opaque numeric identity. -/
structure BottomRef where
  upper : Nat
  deriving DecidableEq

/-- impl PartialEq for BottomRef: Arc::ptr_eq on the referenced parent. -/
instance : BEq BottomRef :=
  ⟨fun a b => a.upper == b.upper⟩

/-- impl Hash for BottomRef, modelled like TopRef.hashWith. -/
def BottomRef.hashWith (h : Nat → Nat) (r : BottomRef) : Nat :=
  h r.upper

/-- C9: equality and hashing of the upward reference handles TopRef and
BottomRef are determined solely by the identity of the referenced parent
node: two handles compare equal exactly when they reference the same
canonical node, and then they hash alike, however and wherever the two
handles were constructed. -/
theorem upward_ref_eq_hash_by_identity (h : NodeId → Nat) (hb : Nat → Nat)
    (r₁ r₂ : TopRef) (b₁ b₂ : BottomRef) :
    ((r₁ == r₂) = true ↔ r₁.upper = r₂.upper) ∧
    (r₁.upper = r₂.upper → TopRef.hashWith h r₁ = TopRef.hashWith h r₂) ∧
    ((b₁ == b₂) = true ↔ b₁.upper = b₂.upper) ∧
    (b₁.upper = b₂.upper → BottomRef.hashWith hb b₁ = BottomRef.hashWith hb b₂) := by
  refine ⟨?_, ?_, ?_, ?_⟩
  · show (r₁.upper == r₂.upper) = true ↔ r₁.upper = r₂.upper
    exact beq_iff_eq
  · intro he; exact congrArg h he
  · show (b₁.upper == b₂.upper) = true ↔ b₁.upper = b₂.upper
    exact beq_iff_eq
  · intro he; exact congrArg hb he

/-- C2: add_upper forwards the change info_to_add_change builds from the
node's current info to the new parent's child_change exactly when the
multiset add makes the 0 to 1 transition and the policy yields a change;
a repeated add while the parent is already linked only bumps the count
and forwards nothing to the parent. -/
theorem add_upper_seeds_parent_exactly_on_first_link
    {Info Change RootInfo RootInfoType : Type u}
    (ctx : AggregationContext Info Change RootInfo RootInfoType)
    (fuel : Nat) (s : TreeState Info) (n upper : NodeId)
    (hpos : ∀ e ∈ (s n).upper, 0 < e.2) :
    TopTree.add_upper ctx fuel s n upper =
      if CountHashSet.count (s n).upper upper = 0 then
        match ctx.info_to_add_change (s n).data with
        | some change =>
          TopTree.child_change ctx fuel
            (Function.update s n
              ⟨(s n).data, (CountHashSet.add (s n).upper upper).1⟩)
            upper change
        | none =>
          Function.update s n
            ⟨(s n).data, (CountHashSet.add (s n).upper upper).1⟩
      else
        Function.update s n
          ⟨(s n).data, (CountHashSet.add (s n).upper upper).1⟩ := by
  rw [TopTree.add_upper]
  rcases hadd : CountHashSet.add (s n).upper upper with ⟨l', b⟩
  have hiff := CountHashSet.add_snd_iff (s n).upper upper hpos
  rw [hadd] at hiff
  rcases b with _ | _
  · have : ¬ CountHashSet.count (s n).upper upper = 0 := by
      simp at hiff; omega
    simp [this]
  · have : CountHashSet.count (s n).upper upper = 0 := by
      simp at hiff; exact hiff
    simp [this]
    rcases ctx.info_to_add_change (s n).data with _ | ch <;> rfl

/-- Closed witness for the add_upper seeding theorem at a concrete state:
linking node (1, 1) to the fresh parent (0, 0) in the initial forest of
the counting policy takes the if-branch that seeds the parent. -/
theorem add_upper_seeds_parent_exactly_on_first_link_witness :
    TopTree.add_upper countCtx 1 (initState countCtx) ⟨1, 1⟩ ⟨0, 0⟩ =
      if CountHashSet.count ((initState countCtx) ⟨1, 1⟩).upper ⟨0, 0⟩ = 0 then
        match countCtx.info_to_add_change ((initState countCtx) ⟨1, 1⟩).data with
        | some change =>
          TopTree.child_change countCtx 1
            (Function.update (initState countCtx) ⟨1, 1⟩
              ⟨((initState countCtx) ⟨1, 1⟩).data,
               (CountHashSet.add ((initState countCtx) ⟨1, 1⟩).upper ⟨0, 0⟩).1⟩)
            ⟨0, 0⟩ change
        | none =>
          Function.update (initState countCtx) ⟨1, 1⟩
            ⟨((initState countCtx) ⟨1, 1⟩).data,
             (CountHashSet.add ((initState countCtx) ⟨1, 1⟩).upper ⟨0, 0⟩).1⟩
      else
        Function.update (initState countCtx) ⟨1, 1⟩
          ⟨((initState countCtx) ⟨1, 1⟩).data,
           (CountHashSet.add ((initState countCtx) ⟨1, 1⟩).upper ⟨0, 0⟩).1⟩ :=
  add_upper_seeds_parent_exactly_on_first_link countCtx 1 (initState countCtx)
    ⟨1, 1⟩ ⟨0, 0⟩ (by intro e he; simp [initState] at he)

/-- C3: child_change applies the change to the node's own info through
apply_change and then forwards the change apply_change returned, which
may differ from the input, to every currently linked upper in iteration
order; when apply_change returns none, no upper is called and propagation
stops at this node. -/
theorem child_change_applies_and_forwards
    {Info Change RootInfo RootInfoType : Type u}
    (ctx : AggregationContext Info Change RootInfo RootInfoType)
    (fuel : Nat) (s : TreeState Info) (n : NodeId) (change : Change) :
    TopTree.child_change ctx (fuel + 1) s n change =
      match (ctx.apply_change (s n).data change).2 with
      | none =>
        Function.update s n
          ⟨(ctx.apply_change (s n).data change).1, (s n).upper⟩
      | some fwd =>
        (CountHashSet.iter (s n).upper).foldl
          (fun t u => TopTree.child_change ctx fuel t u fwd)
          (Function.update s n
            ⟨(ctx.apply_change (s n).data change).1, (s n).upper⟩) := by
  rw [TopTree.child_change]
  rcases h : ctx.apply_change (s n).data change with ⟨d', fwd⟩
  rcases fwd with _ | c' <;> simp [h]

namespace TopTree

variable {Info Change RootInfo RootInfoType : Type u}

/-- Prefix scan of the get_root_info loop: the accumulator after merging a
list of uppers, or none when some merge in the list signalled break. -/
def merge_scan (ctx : AggregationContext Info Change RootInfo RootInfoType)
    (g : NodeId → RootInfo) : List NodeId → RootInfo → Option RootInfo
  | [], acc => some acc
  | u :: rest, acc =>
    match ctx.merge_root_info acc (g u) with
    | (_, MFlow.brk) => none
    | (acc', MFlow.cont) => merge_scan ctx g rest acc'

theorem merge_loop_append (ctx : AggregationContext Info Change RootInfo RootInfoType)
    (g : NodeId → RootInfo) :
    ∀ (pre l : List NodeId) (acc acc₁ : RootInfo),
      merge_scan ctx g pre acc = some acc₁ →
      merge_loop ctx g (pre ++ l) acc = merge_loop ctx g l acc₁ := by
  intro pre
  induction pre with
  | nil =>
    intro l acc acc₁ h
    simp [merge_scan] at h
    rw [h]
    rfl
  | cons u rest ih =>
    intro l acc acc₁ h
    rw [merge_scan] at h
    rcases hm : ctx.merge_root_info acc (g u) with ⟨acc', fl⟩
    rw [hm] at h
    rcases fl with _ | _
    · rw [List.cons_append, merge_loop, hm]
      exact ih l acc' acc₁ h
    · simp at h

/-- The state-threaded form of get_root_info: the state is passed through
every recursive call exactly as the code sequences them, so that the
absence of mutation is an explicit theorem rather than a modelling
choice. -/
def merge_loop_st (ctx : AggregationContext Info Change RootInfo RootInfoType)
    (g : TreeState Info → NodeId → RootInfo × TreeState Info) :
    List NodeId → RootInfo → TreeState Info → RootInfo × TreeState Info
  | [], acc, s => (acc, s)
  | u :: rest, acc, s =>
    match ctx.merge_root_info acc (g s u).1 with
    | (acc', MFlow.brk) => (acc', (g s u).2)
    | (acc', MFlow.cont) => merge_loop_st ctx g rest acc' (g s u).2

def get_root_info_st (ctx : AggregationContext Info Change RootInfo RootInfoType) :
    Nat → TreeState Info → NodeId → RootInfoType → RootInfo × TreeState Info
  | 0, s, _, t => (ctx.new_root_info t, s)
  | fuel + 1, s, n, t =>
    if n.depth = 0 then (ctx.info_to_root_info ((s n).data) t, s)
    else
      merge_loop_st ctx (fun t' u => get_root_info_st ctx fuel t' u t)
        (CountHashSet.iter ((s n).upper)) (ctx.new_root_info t) s

theorem merge_loop_st_frame (ctx : AggregationContext Info Change RootInfo RootInfoType)
    (g : TreeState Info → NodeId → RootInfo × TreeState Info)
    (hg : ∀ s u, (g s u).2 = s) :
    ∀ (l : List NodeId) (acc : RootInfo) (s : TreeState Info),
      (merge_loop_st ctx g l acc s).2 = s := by
  intro l
  induction l with
  | nil => intro acc s; rfl
  | cons u rest ih =>
    intro acc s
    rw [merge_loop_st]
    rcases hm : ctx.merge_root_info acc (g s u).1 with ⟨acc', fl⟩
    rcases fl with _ | _ <;> simp [hg, ih]

end TopTree

/-- C7: get_root_info is a read-only traversal: the state after a root
query, with the state threaded through every recursive call exactly as
the code sequences them, is the state before it; no node's info and no
node's uppers multiset is mutated. -/
theorem get_root_info_leaves_state_unchanged
    {Info Change RootInfo RootInfoType : Type u}
    (ctx : AggregationContext Info Change RootInfo RootInfoType) :
    ∀ (fuel : Nat) (s : TreeState Info) (n : NodeId) (t : RootInfoType),
      (TopTree.get_root_info_st ctx fuel s n t).2 = s := by
  intro fuel
  induction fuel with
  | zero => intro s n t; rfl
  | succ f ih =>
    intro s n t
    rw [TopTree.get_root_info_st]
    by_cases hd : n.depth = 0
    · simp [hd]
    · simp only [hd, if_false]
      exact TopTree.merge_loop_st_frame ctx _ (fun s' u => ih s' u t) _ _ _

/-- The state-threaded and the plain query agree on the returned root
info, which lets the remaining theorems use the plain form. -/
theorem get_root_info_st_fst {Info Change RootInfo RootInfoType : Type u}
    (ctx : AggregationContext Info Change RootInfo RootInfoType) :
    ∀ (fuel : Nat) (s : TreeState Info) (n : NodeId) (t : RootInfoType),
      (TopTree.get_root_info_st ctx fuel s n t).1 =
        TopTree.get_root_info ctx fuel s n t := by
  intro fuel
  induction fuel with
  | zero => intro s n t; rfl
  | succ f ih =>
    intro s n t
    rw [TopTree.get_root_info_st, TopTree.get_root_info]
    by_cases hd : n.depth = 0
    · simp [hd]
    · simp only [hd, if_false]
      have hloop : ∀ (l : List NodeId) (acc : RootInfo) (s' : TreeState Info),
          (TopTree.merge_loop_st ctx
            (fun t' u => TopTree.get_root_info_st ctx f t' u t) l acc s').1 =
          TopTree.merge_loop ctx
            (fun u => TopTree.get_root_info ctx f s' u t) l acc := by
        intro l
        induction l with
        | nil => intro acc s'; rfl
        | cons u rest ihl =>
          intro acc s'
          rw [TopTree.merge_loop_st, TopTree.merge_loop]
          have hfr : (TopTree.get_root_info_st ctx f s' u t).2 = s' :=
            get_root_info_leaves_state_unchanged ctx f s' u t
          rw [ih s' u t]
          rcases hm : ctx.merge_root_info acc
              (TopTree.get_root_info ctx f s' u t) with ⟨acc', fl⟩
          rcases fl with _ | _
          · rw [ihl, hfr]
          · rfl
      exact hloop _ _ s

/-- C4: during get_root_info at a node of positive depth, as soon as
merge_root_info signals break after merging some upper's result, the
remaining uppers are not visited and the partially merged accumulator is
returned: the result is the accumulator at the break point, whatever the
remaining uppers are. -/
theorem get_root_info_break_short_circuits
    {Info Change RootInfo RootInfoType : Type u}
    (ctx : AggregationContext Info Change RootInfo RootInfoType)
    (fuel : Nat) (s : TreeState Info) (n : NodeId) (t : RootInfoType)
    (pre rest : List NodeId) (u : NodeId) (acc₁ acc' : RootInfo)
    (hdepth : n.depth ≠ 0)
    (hiter : CountHashSet.iter ((s n).upper) = pre ++ u :: rest)
    (hpre : TopTree.merge_scan ctx
      (fun v => TopTree.get_root_info ctx fuel s v t) pre
      (ctx.new_root_info t) = some acc₁)
    (hbrk : ctx.merge_root_info acc₁
      (TopTree.get_root_info ctx fuel s u t) = (acc', MFlow.brk)) :
    TopTree.get_root_info ctx (fuel + 1) s n t = acc' := by
  rw [TopTree.get_root_info]
  simp only [hdepth, if_false]
  rw [hiter, TopTree.merge_loop_append ctx _ pre (u :: rest) _ acc₁ hpre,
    TopTree.merge_loop, hbrk]

/-- A policy whose merge always signals break, used to exercise the
short-circuit path of get_root_info on a concrete state. -/
def brkCtx : AggregationContext Int Int Int Unit where
  dflt := 0
  apply_change := fun i c => (i + c, some c)
  info_to_add_change := fun i => some (i + 1)
  info_to_remove_change := fun i => some (-(i + 1))
  info_to_root_info := fun i _ => i
  new_root_info := fun _ => 0
  merge_root_info := fun a b => (a + b, MFlow.brk)

/-- Closed witness for the short-circuit theorem: node (1, 1) with the two
uppers (0, 0) and (5, 0); merging the first upper's answer breaks, and the
query returns that partial accumulator without visiting (5, 0). -/
theorem get_root_info_break_short_circuits_witness :
    TopTree.get_root_info brkCtx 2
      (run brkCtx [Op.addChild 0 0 1, Op.addChild 5 0 1] (initState brkCtx))
      ⟨1, 1⟩ () = 1 :=
  get_root_info_break_short_circuits brkCtx 1
    (run brkCtx [Op.addChild 0 0 1, Op.addChild 5 0 1] (initState brkCtx))
    ⟨1, 1⟩ () [] [⟨5, 0⟩] ⟨0, 0⟩ 0 1
    (by decide) (by decide) (by decide) (by decide)

/-- Structural well-formedness of every node's upper multiset: all stored
counts are positive and the keys are distinct.  This holds for every
reachable state and is what makes the count transitions of the multiset
meaningful. -/
def StructWF {Info : Type u} (s : TreeState Info) : Prop :=
  ∀ m : NodeId,
    (∀ e ∈ (s m).upper, 0 < e.2) ∧ (CountHashSet.iter (s m).upper).Nodup

/-- The layering invariant of live upward links: an upper u of node m sits
exactly one depth level closer to the root, u.depth + 1 = m.depth. -/
def Layered {Info : Type u} (s : TreeState Info) : Prop :=
  ∀ m u : NodeId,
    0 < CountHashSet.count (s m).upper u → u.depth + 1 = m.depth

section StructuralInvariants

variable {Info Change RootInfo RootInfoType : Type u}
variable (ctx : AggregationContext Info Change RootInfo RootInfoType)

theorem add_upper_upper (fuel : Nat) (s : TreeState Info) (n upper m : NodeId) :
    ((TopTree.add_upper ctx fuel s n upper) m).upper =
      if m = n then (CountHashSet.add (s n).upper upper).1
      else (s m).upper := by
  rw [TopTree.add_upper]
  rcases hadd : CountHashSet.add (s n).upper upper with ⟨l', b⟩
  have hupd : (Function.update s n ⟨(s n).data, l'⟩ m).upper =
      if m = n then l' else (s m).upper := by
    by_cases hm : m = n
    · subst hm; simp
    · simp [Function.update_noteq hm, hm]
  rcases b with _ | _
  · rw [hupd]
  · rcases ctx.info_to_add_change (s n).data with _ | ch
    · rw [hupd]
    · rw [child_change_upper, hupd]

theorem remove_upper_upper (fuel : Nat) (s : TreeState Info) (n upper m : NodeId) :
    ((TopTree.remove_upper ctx fuel s n upper) m).upper =
      if m = n then (CountHashSet.remove (s n).upper upper).1
      else (s m).upper := by
  rw [TopTree.remove_upper]
  rcases hrem : CountHashSet.remove (s n).upper upper with ⟨l', b⟩
  have hupd : (Function.update s n ⟨(s n).data, l'⟩ m).upper =
      if m = n then l' else (s m).upper := by
    by_cases hm : m = n
    · subst hm; simp
    · simp [Function.update_noteq hm, hm]
  rcases b with _ | _
  · rw [hupd]
  · rcases ctx.info_to_remove_change (s n).data with _ | ch
    · rw [hupd]
    · rw [child_change_upper, hupd]

theorem structWF_add_upper (fuel : Nat) (s : TreeState Info) (n upper : NodeId)
    (h : StructWF s) : StructWF (TopTree.add_upper ctx fuel s n upper) := by
  intro m
  rw [add_upper_upper]
  by_cases hm : m = n
  · simp only [hm, if_pos rfl]
    exact ⟨CountHashSet.pos_add _ _ (h n).1,
      CountHashSet.nodup_add _ _ (h n).1 (h n).2⟩
  · simp only [hm, if_false]
    exact h m

theorem structWF_remove_upper (fuel : Nat) (s : TreeState Info) (n upper : NodeId)
    (h : StructWF s) : StructWF (TopTree.remove_upper ctx fuel s n upper) := by
  intro m
  rw [remove_upper_upper]
  by_cases hm : m = n
  · simp only [hm, if_pos rfl]
    exact ⟨CountHashSet.pos_remove _ _ (h n).1,
      CountHashSet.nodup_remove _ _ (h n).2⟩
  · simp only [hm, if_false]
    exact h m

theorem layered_add_upper (fuel : Nat) (s : TreeState Info) (n upper : NodeId)
    (hL : Layered s) (hdep : upper.depth + 1 = n.depth) :
    Layered (TopTree.add_upper ctx fuel s n upper) := by
  intro m u
  rw [add_upper_upper]
  by_cases hm : m = n
  · subst hm
    rw [if_pos rfl]
    by_cases hu : u = upper
    · subst hu
      intro _
      omega
    · rw [CountHashSet.count_add_other _ _ _ hu]
      exact hL m u
  · rw [if_neg hm]
    exact hL m u

theorem layered_remove_upper (fuel : Nat) (s : TreeState Info) (n upper : NodeId)
    (hW : StructWF s) (hL : Layered s) :
    Layered (TopTree.remove_upper ctx fuel s n upper) := by
  intro m u
  rw [remove_upper_upper]
  by_cases hm : m = n
  · subst hm
    rw [if_pos rfl]
    by_cases hu : u = upper
    · subst hu
      rw [CountHashSet.count_remove_self _ _ (hW m).2]
      intro hpos
      exact hL m u (by omega)
    · rw [CountHashSet.count_remove_other _ _ _ hu]
      exact hL m u
  · rw [if_neg hm]
    exact hL m u

theorem run_structWF_layered :
    ∀ (ops : List Op) (s : TreeState Info), StructWF s → Layered s →
      StructWF (run ctx ops s) ∧ Layered (run ctx ops s) := by
  intro ops
  induction ops with
  | nil => exact fun s hw hl => ⟨hw, hl⟩
  | cons op rest ih =>
    intro s hw hl
    have hstep : StructWF (runOp ctx s op) ∧ Layered (runOp ctx s op) := by
      rcases op with ⟨p, d, c⟩ | ⟨p, d, c⟩
      · exact ⟨structWF_add_upper ctx (d + 1) s ⟨c, d + 1⟩ ⟨p, d⟩ hw,
          layered_add_upper ctx (d + 1) s ⟨c, d + 1⟩ ⟨p, d⟩ hl rfl⟩
      · exact ⟨structWF_remove_upper ctx (d + 1) s ⟨c, d + 1⟩ ⟨p, d⟩ hw,
          layered_remove_upper ctx (d + 1) s ⟨c, d + 1⟩ ⟨p, d⟩ hw hl⟩
    have : run ctx (op :: rest) s = run ctx rest (runOp ctx s op) := rfl
    rw [this]
    exact ih (runOp ctx s op) hstep.1 hstep.2

theorem initState_structWF : StructWF (initState ctx) := by
  intro m
  exact ⟨by intro e he; simp [initState] at he,
    by simp [initState, CountHashSet.iter]⟩

theorem initState_layered : Layered (initState ctx) := by
  intro m u h
  simp [initState, CountHashSet.count] at h

end StructuralInvariants

/-- C6 counterexample: adding child 1 under the depth-0 node 0 creates the
upward link from node (1, 1) to node (0, 0); the parent (the linked upper)
sits at depth 0, which is not the child's depth plus one (2): along an
upward link the depth decreases, the root being depth 0. -/
theorem upward_link_depth_counterexample :
    0 < CountHashSet.count
        ((run countCtx [Op.addChild 0 0 1] (initState countCtx)) ⟨1, 1⟩).upper
        ⟨0, 0⟩ ∧
    ¬ ((⟨0, 0⟩ : NodeId).depth = (⟨1, 1⟩ : NodeId).depth + 1) := by
  exact ⟨by decide, by decide⟩

/-- C6 amended: along every upward link established by the tree's
operations the depth decreases by exactly one: a live upper u of a node m
satisfies u.depth + 1 = m.depth (the node's depth, part of its identity,
never changes after creation). -/
theorem upward_link_decreases_depth_by_one
    {Info Change RootInfo RootInfoType : Type u}
    (ctx : AggregationContext Info Change RootInfo RootInfoType)
    (ops : List Op) (m u : NodeId)
    (hlive : 0 < CountHashSet.count
      ((run ctx ops (initState ctx)) m).upper u) :
    u.depth + 1 = m.depth := by
  have h := run_structWF_layered ctx ops (initState ctx)
    (initState_structWF ctx) (initState_layered ctx)
  exact h.2 m u hlive

/-- Closed witness for the amended link-depth theorem at a concrete run:
the link from node (1, 1) to node (0, 0) gives 0 + 1 = 1. -/
theorem upward_link_decreases_depth_by_one_witness :
    (0 : Nat) + 1 = 1 :=
  upward_link_decreases_depth_by_one countCtx [Op.addChild 0 0 1]
    ⟨1, 1⟩ ⟨0, 0⟩ (by decide)

namespace TopTree

variable {Info Change RootInfo RootInfoType : Type u}

/-- child_change instrumented with the nested lock acquisitions it
performs: each time it calls child_change on an upper u while still
holding the lock of the current node n, the pair
(depth of the held node, depth of the acquired node) is recorded. -/
def child_change_lk (ctx : AggregationContext Info Change RootInfo RootInfoType) :
    Nat → TreeState Info → NodeId → Change →
      TreeState Info × List (Nat × Nat)
  | 0, s, _, _ => (s, [])
  | fuel + 1, s, n, change =>
    match ctx.apply_change (s n).data change with
    | (d', none) => (Function.update s n ⟨d', (s n).upper⟩, [])
    | (d', some fwd) =>
      (CountHashSet.iter (s n).upper).foldl
        (fun acc u =>
          let rr := child_change_lk ctx fuel acc.1 u fwd
          (rr.1, acc.2 ++ (n.depth, u.depth) :: rr.2))
        (Function.update s n ⟨d', (s n).upper⟩, [])

/-- add_upper instrumented with nested lock acquisitions: when the fresh
link fires a seed change, the parent's lock is taken while the node's own
lock is held. -/
def add_upper_lk (ctx : AggregationContext Info Change RootInfo RootInfoType)
    (fuel : Nat) (s : TreeState Info) (n upper : NodeId) :
    TreeState Info × List (Nat × Nat) :=
  match CountHashSet.add (s n).upper upper with
  | (l', true) =>
    match ctx.info_to_add_change (s n).data with
    | some change =>
      let rr := child_change_lk ctx fuel
        (Function.update s n ⟨(s n).data, l'⟩) upper change
      (rr.1, (n.depth, upper.depth) :: rr.2)
    | none => (Function.update s n ⟨(s n).data, l'⟩, [])
  | (l', false) => (Function.update s n ⟨(s n).data, l'⟩, [])

/-- remove_upper instrumented with nested lock acquisitions. -/
def remove_upper_lk (ctx : AggregationContext Info Change RootInfo RootInfoType)
    (fuel : Nat) (s : TreeState Info) (n upper : NodeId) :
    TreeState Info × List (Nat × Nat) :=
  match CountHashSet.remove (s n).upper upper with
  | (l', true) =>
    match ctx.info_to_remove_change (s n).data with
    | some change =>
      let rr := child_change_lk ctx fuel
        (Function.update s n ⟨(s n).data, l'⟩) upper change
      (rr.1, (n.depth, upper.depth) :: rr.2)
    | none => (Function.update s n ⟨(s n).data, l'⟩, [])
  | (l', false) => (Function.update s n ⟨(s n).data, l'⟩, [])

/-- The merge loop of get_root_info instrumented with nested lock
acquisitions: each upper's lock is taken while the lock of the node at
depth d is held. -/
def merge_loop_lk (ctx : AggregationContext Info Change RootInfo RootInfoType)
    (g : NodeId → RootInfo × List (Nat × Nat)) (d : Nat) :
    List NodeId → RootInfo → RootInfo × List (Nat × Nat)
  | [], acc => (acc, [])
  | u :: rest, acc =>
    match ctx.merge_root_info acc (g u).1 with
    | (acc', MFlow.brk) => (acc', (d, u.depth) :: (g u).2)
    | (acc', MFlow.cont) =>
      let rr := merge_loop_lk ctx g d rest acc'
      (rr.1, (d, u.depth) :: ((g u).2 ++ rr.2))

/-- get_root_info instrumented with nested lock acquisitions. -/
def get_root_info_lk (ctx : AggregationContext Info Change RootInfo RootInfoType) :
    Nat → TreeState Info → NodeId → RootInfoType →
      RootInfo × List (Nat × Nat)
  | 0, _, _, t => (ctx.new_root_info t, [])
  | fuel + 1, s, n, t =>
    if n.depth = 0 then (ctx.info_to_root_info ((s n).data) t, [])
    else
      merge_loop_lk ctx (fun u => get_root_info_lk ctx fuel s u t) n.depth
        (CountHashSet.iter ((s n).upper)) (ctx.new_root_info t)

end TopTree

/-- The structural mutation operations instrumented with nested lock
acquisitions; add_child_of_child and remove_child_of_child themselves
hold no lock when they enter the child's tree. -/
def runOpLk {Info Change RootInfo RootInfoType : Type u}
    (ctx : AggregationContext Info Change RootInfo RootInfoType)
    (s : TreeState Info) : Op → TreeState Info × List (Nat × Nat)
  | Op.addChild p d c => TopTree.add_upper_lk ctx (d + 1) s ⟨c, d + 1⟩ ⟨p, d⟩
  | Op.removeChild p d c => TopTree.remove_upper_lk ctx (d + 1) s ⟨c, d + 1⟩ ⟨p, d⟩

section LockTraces

variable {Info Change RootInfo RootInfoType : Type u}
variable (ctx : AggregationContext Info Change RootInfo RootInfoType)

/-- The instrumented child_change also leaves every upper multiset
untouched, so the layering of the state persists along the fold. -/
theorem child_change_lk_upper :
    ∀ (fuel : Nat) (s : TreeState Info) (n : NodeId) (ch : Change)
      (m : NodeId),
      ((TopTree.child_change_lk ctx fuel s n ch).1 m).upper = (s m).upper := by
  intro fuel
  induction fuel with
  | zero => intro s n ch m; rfl
  | succ f ih =>
    have hfold : ∀ (c' : Change) (l : List NodeId)
        (t : TreeState Info × List (Nat × Nat)) (m : NodeId),
        ((l.foldl (fun acc u =>
            let rr := TopTree.child_change_lk ctx f acc.1 u c'
            (rr.1, acc.2 ++ (0, u.depth) :: rr.2)) t).1 m).upper
          = (t.1 m).upper := by
      intro c' l
      induction l with
      | nil => intro t m; rfl
      | cons u rest ihl =>
        intro t m
        rw [List.foldl_cons, ihl]
        exact ih t.1 u c' m
    intro s n ch m
    rw [TopTree.child_change_lk]
    rcases h : ctx.apply_change (s n).data ch with ⟨d', fwd⟩
    rcases fwd with _ | c'
    · by_cases hm : m = n
      · subst hm; simp
      · simp [Function.update_noteq hm]
    · have hfold' : ∀ (l : List NodeId)
          (t : TreeState Info × List (Nat × Nat)) (m : NodeId),
          ((l.foldl (fun acc u =>
              let rr := TopTree.child_change_lk ctx f acc.1 u c'
              (rr.1, acc.2 ++ (n.depth, u.depth) :: rr.2)) t).1 m).upper
            = (t.1 m).upper := by
        intro l
        induction l with
        | nil => intro t m; rfl
        | cons u rest ihl =>
          intro t m
          rw [List.foldl_cons, ihl]
          exact ih t.1 u c' m
      rw [hfold']
      by_cases hm : m = n
      · subst hm; simp
      · simp [Function.update_noteq hm]

/-- Every nested lock acquisition recorded by the instrumented
child_change in a layered state goes from a node to one exactly one depth
level closer to the root. -/
theorem child_change_lk_trace :
    ∀ (fuel : Nat) (s : TreeState Info) (n : NodeId) (ch : Change),
      StructWF s → Layered s →
      ∀ pr ∈ (TopTree.child_change_lk ctx fuel s n ch).2, pr.2 + 1 = pr.1 := by
  intro fuel
  induction fuel with
  | zero => intro s n ch _ _ pr hpr; simp [TopTree.child_change_lk] at hpr
  | succ f ih =>
    intro s n ch hW hL
    rw [TopTree.child_change_lk]
    rcases h : ctx.apply_change (s n).data ch with ⟨d', fwd⟩
    rcases fwd with _ | c'
    · intro pr hpr; simp at hpr
    · have hlist : ∀ u ∈ CountHashSet.iter (s n).upper, u.depth + 1 = n.depth := by
        intro u hu
        exact hL n u ((CountHashSet.mem_iter_iff_pos _ _ (hW n).1).1 hu)
      have hfold : ∀ (l : List NodeId),
          (∀ u ∈ l, u.depth + 1 = n.depth) →
          ∀ (t : TreeState Info × List (Nat × Nat)),
          (∀ m, (t.1 m).upper = (s m).upper) →
          (∀ pr ∈ t.2, pr.2 + 1 = pr.1) →
          ∀ pr ∈ (l.foldl (fun acc u =>
              let rr := TopTree.child_change_lk ctx f acc.1 u c'
              (rr.1, acc.2 ++ (n.depth, u.depth) :: rr.2)) t).2,
            pr.2 + 1 = pr.1 := by
        intro l
        induction l with
        | nil => intro _ t _ ht pr hpr; exact ht pr hpr
        | cons u rest ihl =>
          intro hl t htup ht
          rw [List.foldl_cons]
          refine ihl (fun v hv => hl v (by simp [hv])) _ ?_ ?_
          · intro m
            rw [child_change_lk_upper, htup]
          · intro pr hpr
            simp only [List.mem_append, List.mem_cons] at hpr
            rcases hpr with hpr | hpr | hpr
            · exact ht pr hpr
            · rw [hpr]
              exact hl u (by simp)
            · have hW' : StructWF t.1 := by
                intro m
                rw [htup]; exact hW m
              have hL' : Layered t.1 := by
                intro m v
                rw [htup]; exact hL m v
              exact ih t.1 u c' hW' hL' pr hpr
      intro pr hpr
      refine hfold (CountHashSet.iter (s n).upper) hlist _ ?_ ?_ pr hpr
      · intro m
        by_cases hm : m = n
        · subst hm; simp
        · simp [Function.update_noteq hm]
      · intro pr hpr; simp at hpr

end LockTraces

section LockTraces2

variable {Info Change RootInfo RootInfoType : Type u}
variable (ctx : AggregationContext Info Change RootInfo RootInfoType)

theorem add_upper_lk_trace (fuel : Nat) (s : TreeState Info) (n upper : NodeId)
    (hW : StructWF s) (hL : Layered s) (hdep : upper.depth + 1 = n.depth) :
    ∀ pr ∈ (TopTree.add_upper_lk ctx fuel s n upper).2, pr.2 + 1 = pr.1 := by
  rw [TopTree.add_upper_lk]
  rcases hadd : CountHashSet.add (s n).upper upper with ⟨l', b⟩
  have hl' : l' = (CountHashSet.add (s n).upper upper).1 := by rw [hadd]
  have hW' : StructWF (Function.update s n ⟨(s n).data, l'⟩) := by
    intro m
    by_cases hm : m = n
    · subst hm
      simp only [Function.update_same]
      rw [hl']
      exact ⟨CountHashSet.pos_add _ _ (hW m).1,
        CountHashSet.nodup_add _ _ (hW m).1 (hW m).2⟩
    · rw [Function.update_noteq hm]
      exact hW m
  have hL' : Layered (Function.update s n ⟨(s n).data, l'⟩) := by
    intro m v
    by_cases hm : m = n
    · subst hm
      simp only [Function.update_same]
      rw [hl']
      by_cases hv : v = upper
      · subst hv
        intro _
        omega
      · rw [CountHashSet.count_add_other _ _ _ hv]
        exact hL m v
    · rw [Function.update_noteq hm]
      exact hL m v
  rcases b with _ | _
  · intro pr hpr; simp at hpr
  · rcases ctx.info_to_add_change (s n).data with _ | ch
    · intro pr hpr; simp at hpr
    · intro pr hpr
      simp only [List.mem_cons] at hpr
      rcases hpr with hpr | hpr
      · rw [hpr]
        exact hdep
      · exact child_change_lk_trace ctx fuel _ upper ch hW' hL' pr hpr

theorem remove_upper_lk_trace (fuel : Nat) (s : TreeState Info) (n upper : NodeId)
    (hW : StructWF s) (hL : Layered s) (hdep : upper.depth + 1 = n.depth) :
    ∀ pr ∈ (TopTree.remove_upper_lk ctx fuel s n upper).2, pr.2 + 1 = pr.1 := by
  rw [TopTree.remove_upper_lk]
  rcases hrem : CountHashSet.remove (s n).upper upper with ⟨l', b⟩
  have hl' : l' = (CountHashSet.remove (s n).upper upper).1 := by rw [hrem]
  have hW' : StructWF (Function.update s n ⟨(s n).data, l'⟩) := by
    intro m
    by_cases hm : m = n
    · subst hm
      simp only [Function.update_same]
      rw [hl']
      exact ⟨CountHashSet.pos_remove _ _ (hW m).1,
        CountHashSet.nodup_remove _ _ (hW m).2⟩
    · rw [Function.update_noteq hm]
      exact hW m
  have hL' : Layered (Function.update s n ⟨(s n).data, l'⟩) := by
    intro m v
    by_cases hm : m = n
    · subst hm
      simp only [Function.update_same]
      rw [hl']
      by_cases hv : v = upper
      · subst hv
        rw [CountHashSet.count_remove_self _ _ (hW m).2]
        intro hpos
        exact hL m v (by omega)
      · rw [CountHashSet.count_remove_other _ _ _ hv]
        exact hL m v
    · rw [Function.update_noteq hm]
      exact hL m v
  rcases b with _ | _
  · intro pr hpr; simp at hpr
  · rcases ctx.info_to_remove_change (s n).data with _ | ch
    · intro pr hpr; simp at hpr
    · intro pr hpr
      simp only [List.mem_cons] at hpr
      rcases hpr with hpr | hpr
      · rw [hpr]
        exact hdep
      · exact child_change_lk_trace ctx fuel _ upper ch hW' hL' pr hpr

theorem get_root_info_lk_trace :
    ∀ (fuel : Nat) (s : TreeState Info) (n : NodeId) (t : RootInfoType),
      StructWF s → Layered s →
      ∀ pr ∈ (TopTree.get_root_info_lk ctx fuel s n t).2, pr.2 + 1 = pr.1 := by
  intro fuel
  induction fuel with
  | zero => intro s n t _ _ pr hpr; simp [TopTree.get_root_info_lk] at hpr
  | succ f ih =>
    intro s n t hW hL
    rw [TopTree.get_root_info_lk]
    by_cases hd : n.depth = 0
    · simp only [hd, if_pos rfl]
      intro pr hpr; simp at hpr
    · simp only [hd, if_false]
      have hlist : ∀ u ∈ CountHashSet.iter (s n).upper,
          u.depth + 1 = n.depth := by
        intro u hu
        exact hL n u ((CountHashSet.mem_iter_iff_pos _ _ (hW n).1).1 hu)
      have hloop : ∀ (l : List NodeId),
          (∀ u ∈ l, u.depth + 1 = n.depth) →
          ∀ (acc : RootInfo) (pr : Nat × Nat),
            pr ∈ (TopTree.merge_loop_lk ctx
              (fun u => TopTree.get_root_info_lk ctx f s u t) n.depth
              l acc).2 → pr.2 + 1 = pr.1 := by
        intro l
        induction l with
        | nil => intro _ acc pr hpr; simp [TopTree.merge_loop_lk] at hpr
        | cons u rest ihl =>
          intro hl acc pr
          rw [TopTree.merge_loop_lk]
          rcases hm : ctx.merge_root_info acc
              (TopTree.get_root_info_lk ctx f s u t).1 with ⟨acc', fl⟩
          rcases fl with _ | _
          · intro hpr
            simp only [List.mem_cons, List.mem_append] at hpr
            rcases hpr with hpr | hpr | hpr
            · rw [hpr]
              exact hl u (by simp)
            · exact ih s u t hW hL pr hpr
            · exact ihl (fun v hv => hl v (by simp [hv])) acc' pr hpr
          · intro hpr
            simp only [List.mem_cons] at hpr
            rcases hpr with hpr | hpr
            · rw [hpr]
              exact hl u (by simp)
            · exact ih s u t hW hL pr hpr
      intro pr hpr
      exact hloop _ hlist _ pr hpr

end LockTraces2

/-- C5 counterexample: the very first add-child operation on a fresh
forest records the nested lock acquisition (held depth 1, acquired
depth 0): while holding the lock of the child's node at depth 1,
add_upper acquires the lock of the parent at depth 0, and 0 is not
1 + 1. -/
theorem lock_acquisition_depth_counterexample :
    ((1, 0) ∈ (runOpLk countCtx (initState countCtx) (Op.addChild 0 0 1)).2) ∧
    ¬ ((0 : Nat) = 1 + 1) :=
  ⟨by decide, by decide⟩

/-- C5 amended: for every operation of the tree run on a reachable state,
whenever a call holds the lock of a node and then acquires the lock of
another node, the acquired node is at the held node's depth minus 1
(acquired depth + 1 = held depth); no lock of a node at greater or equal
depth is ever acquired while holding one. -/
theorem nested_lock_acquisition_is_one_level_up
    {Info Change RootInfo RootInfoType : Type u}
    (ctx : AggregationContext Info Change RootInfo RootInfoType)
    (ops : List Op) (op : Op) (fuel : Nat) (n : NodeId) (t : RootInfoType) :
    (∀ pr ∈ (runOpLk ctx (run ctx ops (initState ctx)) op).2,
      pr.2 + 1 = pr.1) ∧
    (∀ pr ∈ (TopTree.get_root_info_lk ctx fuel
        (run ctx ops (initState ctx)) n t).2,
      pr.2 + 1 = pr.1) := by
  have h := run_structWF_layered ctx ops (initState ctx)
    (initState_structWF ctx) (initState_layered ctx)
  constructor
  · rcases op with ⟨p, d, c⟩ | ⟨p, d, c⟩
    · exact add_upper_lk_trace ctx (d + 1) _ ⟨c, d + 1⟩ ⟨p, d⟩ h.1 h.2 rfl
    · exact remove_upper_lk_trace ctx (d + 1) _ ⟨c, d + 1⟩ ⟨p, d⟩ h.1 h.2 rfl
  · exact get_root_info_lk_trace ctx fuel _ n t h.1 h.2

/-- Closed witness for the amended lock-order theorem: the single pair
recorded by the first add-child operation satisfies acquired + 1 =
held. -/
theorem nested_lock_acquisition_is_one_level_up_witness :
    ((1, 0) : Nat × Nat).2 + 1 = ((1, 0) : Nat × Nat).1 :=
  (nested_lock_acquisition_is_one_level_up countCtx [] (Op.addChild 0 0 1)
    1 ⟨0, 0⟩ ()).1 (1, 0) (by decide)

/-- The list of distinct uppers of a node, in iteration order. -/
def upl {Info : Type u} (s : TreeState Info) (n : NodeId) : List NodeId :=
  CountHashSet.iter (s n).upper

/-- Number of upward paths (including the empty one from a node to
itself) from n to m along live upper links, counting paths of fewer than
fuel hops.  This is the multiplicity with which a change injected at n
reaches m. -/
def paths {Info : Type u} : Nat → TreeState Info → NodeId → NodeId → Int
  | 0, _, _, _ => 0
  | f + 1, s, n, m =>
    (if n = m then 1 else 0) + ((upl s n).map (fun u => paths f s u m)).sum

theorem sum_map_congr {α : Type v} (l : List α) (f g : α → Int)
    (h : ∀ a ∈ l, f a = g a) : (l.map f).sum = (l.map g).sum := by
  induction l with
  | nil => rfl
  | cons a l ih =>
    simp only [List.map_cons, List.sum_cons]
    rw [h a (by simp), ih (fun a ha => h a (by simp [ha]))]

theorem sum_map_add {α : Type v} (l : List α) (f g : α → Int) :
    (l.map (fun x => f x + g x)).sum = (l.map f).sum + (l.map g).sum := by
  induction l with
  | nil => rfl
  | cons a l ih =>
    simp only [List.map_cons, List.sum_cons, ih]
    ring

theorem sum_map_zero {α : Type v} (l : List α) :
    (l.map (fun _ => (0 : Int))).sum = 0 := by
  induction l with
  | nil => rfl
  | cons a l ih => simp [ih]

section PathsLemmas

variable {Info : Type u}

/-- paths only looks at the upper structure. -/
theorem paths_congr :
    ∀ (f : Nat) (s₁ s₂ : TreeState Info), (∀ k, upl s₁ k = upl s₂ k) →
      ∀ n m, paths f s₁ n m = paths f s₂ n m := by
  intro f
  induction f with
  | zero => intro _ _ _ _ _; rfl
  | succ f ih =>
    intro s₁ s₂ hu n m
    rw [paths, paths, hu n]
    congr 1
    exact sum_map_congr _ _ _ (fun u _ => ih s₁ s₂ hu u m)

/-- paths from n only looks at the upper structure of nodes at depth at
most n.depth, because upper links always step one level closer to the
root. -/
theorem paths_congr_below_depth :
    ∀ (f : Nat) (s₁ s₂ : TreeState Info) (n m : NodeId), Layered s₁ →
      StructWF s₁ →
      (∀ k : NodeId, k.depth ≤ n.depth → upl s₁ k = upl s₂ k) →
      paths f s₁ n m = paths f s₂ n m := by
  intro f
  induction f with
  | zero => intro _ _ _ _ _ _ _; rfl
  | succ f ih =>
    intro s₁ s₂ n m hL hW hk
    rw [paths, paths, ← hk n (le_refl _)]
    congr 1
    refine sum_map_congr _ _ _ (fun u hu => ?_)
    have hdep : u.depth + 1 = n.depth :=
      hL n u ((CountHashSet.mem_iter_iff_pos _ _ (hW n).1).1 hu)
    exact ih s₁ s₂ u m hL hW (fun k hkd => hk k (by omega))

/-- In a layered state there is no upward path to a strictly deeper
node. -/
theorem paths_zero_of_depth_lt :
    ∀ (f : Nat) (s : TreeState Info) (n m : NodeId), Layered s →
      StructWF s → n.depth < m.depth → paths f s n m = 0 := by
  intro f
  induction f with
  | zero => intro _ _ _ _ _ _; rfl
  | succ f ih =>
    intro s n m hL hW hlt
    rw [paths]
    have hne : ¬ (n = m) := by
      intro h; rw [h] at hlt; omega
    rw [if_neg hne]
    have : ((upl s n).map (fun u => paths f s u m)).sum = 0 := by
      rw [show ((upl s n).map (fun u => paths f s u m)).sum
          = ((upl s n).map (fun _ => (0 : Int))).sum from
        sum_map_congr _ _ _ (fun u hu => by
          have hdep : u.depth + 1 = n.depth :=
            hL n u ((CountHashSet.mem_iter_iff_pos _ _ (hW n).1).1 hu)
          exact ih s u m hL hW (by omega)), sum_map_zero]
    rw [this]
    ring

end PathsLemmas

/-- Closed form of child_change for the counting policy: the change is a
delta which lands on every node once per upward path from the entry
node. -/
theorem child_change_count_data :
    ∀ (f : Nat) (s : TreeState Int) (n : NodeId) (δ : Int) (m : NodeId),
      ((TopTree.child_change countCtx f s n δ) m).data
        = (s m).data + δ * paths f s n m := by
  intro f
  induction f with
  | zero => intro s n δ m; rw [paths]; ring_nf; rfl
  | succ f ih =>
    intro s n δ m
    have hupd_data : ∀ (k : NodeId),
        ((Function.update s n ⟨(s n).data + δ, (s n).upper⟩) k).data
          = (s k).data + (if n = k then δ else 0) := by
      intro k
      by_cases hk : k = n
      · subst hk; simp
      · rw [Function.update_noteq hk, if_neg (fun h => hk h.symm)]
        ring
    have hupd_upl : ∀ (k : NodeId),
        upl (Function.update s n ⟨(s n).data + δ, (s n).upper⟩) k = upl s k := by
      intro k
      by_cases hk : k = n
      · subst hk; simp [upl]
      · simp [upl, Function.update_noteq hk]
    have hfold : ∀ (l : List NodeId) (t : TreeState Int),
        (∀ k, upl t k = upl s k) →
        ((l.foldl (fun t u => TopTree.child_change countCtx f t u δ) t) m).data
          = (t m).data + δ * ((l.map (fun u => paths f s u m)).sum) := by
      intro l
      induction l with
      | nil => intro t _; simp
      | cons u rest ihl =>
        intro t ht
        rw [List.foldl_cons]
        have ht' : ∀ k, upl (TopTree.child_change countCtx f t u δ) k = upl t k := by
          intro k
          simp [upl, child_change_upper]
        rw [ihl _ (fun k => (ht' k).trans (ht k)), ih t u δ m,
          paths_congr f t s ht u m]
        simp only [List.map_cons, List.sum_cons]
        ring
    show ((TopTree.child_change countCtx (f + 1) s n δ) m).data = _
    rw [TopTree.child_change]
    have happ : countCtx.apply_change (s n).data δ = ((s n).data + δ, some δ) := rfl
    rw [happ]
    rw [hfold _ _ hupd_upl, hupd_data m, paths]
    by_cases hm : n = m <;> simp [hm, upl] <;> ring

section AddRemoveData

variable {Info Change RootInfo RootInfoType : Type u}
variable (ctx : AggregationContext Info Change RootInfo RootInfoType)

/-- A repeated add of an already linked upper changes no node's info. -/
theorem add_upper_data_stale (fuel : Nat) (s : TreeState Info) (n upper : NodeId)
    (hpos : ∀ e ∈ (s n).upper, 0 < e.2)
    (h : 0 < CountHashSet.count (s n).upper upper) :
    ∀ m, ((TopTree.add_upper ctx fuel s n upper) m).data = (s m).data := by
  intro m
  rw [TopTree.add_upper]
  rcases hadd : CountHashSet.add (s n).upper upper with ⟨l', b⟩
  have hiff := CountHashSet.add_snd_iff (s n).upper upper hpos
  rw [hadd] at hiff
  rcases b with _ | _
  · change ((Function.update s n ⟨(s n).data, l'⟩) m).data = (s m).data
    by_cases hm : m = n
    · subst hm; simp
    · rw [Function.update_noteq hm]
  · exfalso
    have := hiff.1 rfl
    omega

/-- A remove that is not the last-removal transition changes no node's
info. -/
theorem remove_upper_data_not_one (fuel : Nat) (s : TreeState Info)
    (n upper : NodeId)
    (hpos : ∀ e ∈ (s n).upper, 0 < e.2)
    (h : ¬ CountHashSet.count (s n).upper upper = 1) :
    ∀ m, ((TopTree.remove_upper ctx fuel s n upper) m).data = (s m).data := by
  intro m
  rw [TopTree.remove_upper]
  rcases hrem : CountHashSet.remove (s n).upper upper with ⟨l', b⟩
  have hiff := CountHashSet.remove_snd_iff (s n).upper upper hpos
  rw [hrem] at hiff
  rcases b with _ | _
  · change ((Function.update s n ⟨(s n).data, l'⟩) m).data = (s m).data
    by_cases hm : m = n
    · subst hm; simp
    · rw [Function.update_noteq hm]
  · exact absurd (hiff.1 rfl) h

end AddRemoveData

/-- With the counting policy, a fresh add_upper reduces to seeding the new
parent with the node's info plus one. -/
theorem add_upper_count_fresh (fuel : Nat) (s : TreeState Int) (n upper : NodeId)
    (hpos : ∀ e ∈ (s n).upper, 0 < e.2)
    (h : CountHashSet.count (s n).upper upper = 0) :
    TopTree.add_upper countCtx fuel s n upper =
      TopTree.child_change countCtx fuel
        (Function.update s n
          ⟨(s n).data, (CountHashSet.add (s n).upper upper).1⟩)
        upper ((s n).data + 1) := by
  rw [TopTree.add_upper]
  rcases hadd : CountHashSet.add (s n).upper upper with ⟨l', b⟩
  have hiff := CountHashSet.add_snd_iff (s n).upper upper hpos
  rw [hadd] at hiff
  rcases b with _ | _
  · exfalso
    simp at hiff
    omega
  · rfl

/-- With the counting policy, a last-removal remove_upper reduces to
sending the exact inverse contribution to the removed parent. -/
theorem remove_upper_count_one (fuel : Nat) (s : TreeState Int) (n upper : NodeId)
    (hpos : ∀ e ∈ (s n).upper, 0 < e.2)
    (h : CountHashSet.count (s n).upper upper = 1) :
    TopTree.remove_upper countCtx fuel s n upper =
      TopTree.child_change countCtx fuel
        (Function.update s n
          ⟨(s n).data, (CountHashSet.remove (s n).upper upper).1⟩)
        upper (-((s n).data + 1)) := by
  rw [TopTree.remove_upper]
  rcases hrem : CountHashSet.remove (s n).upper upper with ⟨l', b⟩
  have hiff := CountHashSet.remove_snd_iff (s n).upper upper hpos
  rw [hrem] at hiff
  rcases b with _ | _
  · exfalso
    simp at hiff
    exact hiff h
  · rfl

section UpdateInvariants

variable {Info : Type u}

theorem structWF_update_add (s : TreeState Info) (n upper : NodeId) (d₀ : Info)
    (hW : StructWF s) :
    StructWF (Function.update s n
      ⟨d₀, (CountHashSet.add (s n).upper upper).1⟩) := by
  intro m
  by_cases hm : m = n
  · subst hm
    simp only [Function.update_same]
    exact ⟨CountHashSet.pos_add _ _ (hW m).1,
      CountHashSet.nodup_add _ _ (hW m).1 (hW m).2⟩
  · rw [Function.update_noteq hm]
    exact hW m

theorem layered_update_add (s : TreeState Info) (n upper : NodeId) (d₀ : Info)
    (hL : Layered s) (hdep : upper.depth + 1 = n.depth) :
    Layered (Function.update s n
      ⟨d₀, (CountHashSet.add (s n).upper upper).1⟩) := by
  intro m v
  by_cases hm : m = n
  · subst hm
    simp only [Function.update_same]
    by_cases hv : v = upper
    · subst hv
      intro _
      omega
    · rw [CountHashSet.count_add_other _ _ _ hv]
      exact hL m v
  · rw [Function.update_noteq hm]
    exact hL m v

theorem structWF_update_remove (s : TreeState Info) (n upper : NodeId) (d₀ : Info)
    (hW : StructWF s) :
    StructWF (Function.update s n
      ⟨d₀, (CountHashSet.remove (s n).upper upper).1⟩) := by
  intro m
  by_cases hm : m = n
  · subst hm
    simp only [Function.update_same]
    exact ⟨CountHashSet.pos_remove _ _ (hW m).1,
      CountHashSet.nodup_remove _ _ (hW m).2⟩
  · rw [Function.update_noteq hm]
    exact hW m

theorem layered_update_remove (s : TreeState Info) (n upper : NodeId) (d₀ : Info)
    (hW : StructWF s) (hL : Layered s) :
    Layered (Function.update s n
      ⟨d₀, (CountHashSet.remove (s n).upper upper).1⟩) := by
  intro m v
  by_cases hm : m = n
  · subst hm
    simp only [Function.update_same]
    by_cases hv : v = upper
    · subst hv
      rw [CountHashSet.count_remove_self _ _ (hW m).2]
      intro hpos
      exact hL m v (by omega)
    · rw [CountHashSet.count_remove_other _ _ _ hv]
      exact hL m v
  · rw [Function.update_noteq hm]
    exact hL m v

end UpdateInvariants

theorem run_append {Info Change RootInfo RootInfoType : Type u}
    (ctx : AggregationContext Info Change RootInfo RootInfoType)
    (l₁ l₂ : List Op) (s : TreeState Info) :
    run ctx (l₁ ++ l₂) s = run ctx l₂ (run ctx l₁ s) := by
  simp [run, List.foldl_append]

/-- C8 amended (the child-counting policy): add_child(x) immediately
followed by remove_child(x), executed after any sequence of operations,
restores the info of every node (in particular every node on the upward
propagation path) to exactly the value it had before the pair of
operations.  For an arbitrary aggregation policy the restoration fails:
see the counterexample with the policy whose removal change is none. -/
theorem add_then_remove_child_restores_info (ops : List Op) (p d c : Nat)
    (m : NodeId) :
    ((run countCtx (ops ++ [Op.addChild p d c, Op.removeChild p d c])
        (initState countCtx)) m).data
      = ((run countCtx ops (initState countCtx)) m).data := by
  obtain ⟨hW, hL⟩ := run_structWF_layered countCtx ops (initState countCtx)
    (initState_structWF countCtx) (initState_layered countCtx)
  rw [run_append]
  set s := run countCtx ops (initState countCtx) with hs
  have hrr : run countCtx [Op.addChild p d c, Op.removeChild p d c] s
      = runOp countCtx (runOp countCtx s (Op.addChild p d c))
          (Op.removeChild p d c) := rfl
  rw [hrr]
  have hrun1 : runOp countCtx s (Op.addChild p d c)
      = TopTree.add_upper countCtx (d + 1) s ⟨c, d + 1⟩ ⟨p, d⟩ := rfl
  by_cases hcnt : CountHashSet.count (s ⟨c, d + 1⟩).upper ⟨p, d⟩ = 0
  · -- the pair of operations creates and then destroys the link
    have hposX := (hW ⟨c, d + 1⟩).1
    set s₁ := Function.update s ⟨c, d + 1⟩
      ⟨(s ⟨c, d + 1⟩).data,
       (CountHashSet.add (s ⟨c, d + 1⟩).upper ⟨p, d⟩).1⟩ with hs₁
    set δ : Int := (s ⟨c, d + 1⟩).data + 1 with hδ
    have h1 : runOp countCtx s (Op.addChild p d c)
        = TopTree.child_change countCtx (d + 1) s₁ ⟨p, d⟩ δ := by
      rw [hrun1, add_upper_count_fresh _ _ _ _ hposX hcnt]
    set s₂ := TopTree.child_change countCtx (d + 1) s₁ ⟨p, d⟩ δ with hs₂
    have hW₁ : StructWF s₁ := structWF_update_add s ⟨c, d + 1⟩ ⟨p, d⟩ _ hW
    have hL₁ : Layered s₁ := layered_update_add s ⟨c, d + 1⟩ ⟨p, d⟩ _ hL rfl
    have hupper₂ : ∀ k, (s₂ k).upper = (s₁ k).upper :=
      fun k => child_change_upper countCtx _ _ _ _ _
    have hW₂ : StructWF s₂ := by
      intro k
      rw [hupper₂ k]
      exact hW₁ k
    have hdata₂ : ∀ k, (s₂ k).data
        = (s k).data + δ * paths (d + 1) s₁ ⟨p, d⟩ k := by
      intro k
      rw [hs₂, child_change_count_data]
      congr 1
      by_cases hk : k = ⟨c, d + 1⟩
      · subst hk; rw [hs₁]; simp
      · rw [hs₁, Function.update_noteq hk]
    have hupper₁X : (s₁ ⟨c, d + 1⟩).upper
        = (CountHashSet.add (s ⟨c, d + 1⟩).upper ⟨p, d⟩).1 := by
      rw [hs₁]; simp
    have hcnt₂ : CountHashSet.count (s₂ ⟨c, d + 1⟩).upper ⟨p, d⟩ = 1 := by
      rw [hupper₂, hupper₁X, CountHashSet.count_add_self, hcnt]
    have h2 : runOp countCtx s₂ (Op.removeChild p d c)
        = TopTree.child_change countCtx (d + 1)
            (Function.update s₂ ⟨c, d + 1⟩
              ⟨(s₂ ⟨c, d + 1⟩).data,
               (CountHashSet.remove (s₂ ⟨c, d + 1⟩).upper ⟨p, d⟩).1⟩)
            ⟨p, d⟩ (-((s₂ ⟨c, d + 1⟩).data + 1)) := by
      show TopTree.remove_upper countCtx (d + 1) s₂ ⟨c, d + 1⟩ ⟨p, d⟩ = _
      exact remove_upper_count_one _ _ _ _ (hW₂ ⟨c, d + 1⟩).1 hcnt₂
    set s₃ := Function.update s₂ ⟨c, d + 1⟩
      ⟨(s₂ ⟨c, d + 1⟩).data,
       (CountHashSet.remove (s₂ ⟨c, d + 1⟩).upper ⟨p, d⟩).1⟩ with hs₃
    have hpathPX : paths (d + 1) s₁ ⟨p, d⟩ ⟨c, d + 1⟩ = 0 :=
      paths_zero_of_depth_lt _ s₁ _ _ hL₁ hW₁ (by show d < d + 1; omega)
    have hdataX₂ : (s₂ ⟨c, d + 1⟩).data = (s ⟨c, d + 1⟩).data := by
      rw [hdata₂, hpathPX]; ring
    have hδ' : -((s₂ ⟨c, d + 1⟩).data + 1) = -δ := by rw [hdataX₂, hδ]
    have hdata₃ : ∀ k, (s₃ k).data = (s₂ k).data := by
      intro k
      by_cases hk : k = ⟨c, d + 1⟩
      · subst hk; rw [hs₃]; simp
      · rw [hs₃, Function.update_noteq hk]
    have hupl₃ : ∀ k : NodeId, k.depth ≤ (⟨p, d⟩ : NodeId).depth →
        upl s₁ k = upl s₃ k := by
      intro k hkd
      have hkX : k ≠ ⟨c, d + 1⟩ := by
        intro hkk
        rw [hkk] at hkd
        simp at hkd
      have e1 : (s₃ k).upper = (s₂ k).upper := by
        rw [hs₃, Function.update_noteq hkX]
      rw [upl, upl, e1, hupper₂ k]
    rw [h1, h2, hδ']
    rw [child_change_count_data, hdata₃, hdata₂,
      ← paths_congr_below_depth (d + 1) s₁ s₃ ⟨p, d⟩ m hL₁ hW₁ hupl₃]
    ring
  · -- the link already existed: only counts move, no info changes
    have h1 : ∀ k, ((runOp countCtx s (Op.addChild p d c)) k).data
        = (s k).data := by
      intro k
      rw [hrun1]
      exact add_upper_data_stale countCtx (d + 1) s _ _ (hW ⟨c, d + 1⟩).1
        (by omega) k
    have hupper₂' : ((runOp countCtx s (Op.addChild p d c)) ⟨c, d + 1⟩).upper
        = (CountHashSet.add (s ⟨c, d + 1⟩).upper ⟨p, d⟩).1 := by
      rw [hrun1, add_upper_upper]
      simp
    have hW₂' : StructWF (runOp countCtx s (Op.addChild p d c)) := by
      rw [hrun1]
      exact structWF_add_upper countCtx _ s _ _ hW
    have hcnt₂' : ¬ CountHashSet.count
        ((runOp countCtx s (Op.addChild p d c)) ⟨c, d + 1⟩).upper ⟨p, d⟩ = 1 := by
      rw [hupper₂', CountHashSet.count_add_self]
      omega
    have h2 : ∀ k, ((runOp countCtx (runOp countCtx s (Op.addChild p d c))
        (Op.removeChild p d c)) k).data
        = ((runOp countCtx s (Op.addChild p d c)) k).data := by
      intro k
      exact remove_upper_data_not_one countCtx (d + 1) _ _ _
        (hW₂' ⟨c, d + 1⟩).1 hcnt₂' k
    rw [h2 m, h1 m]

/-- The layering of an edge list: every edge climbs exactly one level
toward the root (the lower endpoint is one deeper than its upper). -/
def ELayered (E : List (NodeId × NodeId)) : Prop :=
  ∀ e ∈ E, e.1.depth = e.2.depth + 1

/-- Upper endpoints of the edges leaving n, in list order. -/
def uppersIn (E : List (NodeId × NodeId)) (n : NodeId) : List NodeId :=
  (E.filter (fun e => e.1 == n)).map (fun e => e.2)

/-- Lower endpoints of the edges arriving at m, in list order. -/
def lowersIn (E : List (NodeId × NodeId)) (m : NodeId) : List NodeId :=
  (E.filter (fun e => e.2 == m)).map (fun e => e.1)

/-- Number of upward paths from n to m along a list of edges, counting
paths of fewer than fuel hops, including the empty path when n = m. -/
def pathsE : Nat → List (NodeId × NodeId) → NodeId → NodeId → Int
  | 0, _, _, _ => 0
  | f + 1, E, n, m =>
    (if n = m then 1 else 0)
      + ((uppersIn E n).map (fun u => pathsE f E u m)).sum

/-- The from-scratch aggregate of the counting policy over an edge list:
each node's info is the number of downward paths leaving it, computed
recursively from its lower neighbours. -/
def Fagg : Nat → List (NodeId × NodeId) → NodeId → Int
  | 0, _, _ => 0
  | f + 1, E, m => ((lowersIn E m).map (fun x => 1 + Fagg f E x)).sum

theorem uppersIn_cons (e : NodeId × NodeId) (E : List (NodeId × NodeId))
    (n : NodeId) :
    uppersIn (e :: E) n =
      if e.1 = n then e.2 :: uppersIn E n else uppersIn E n := by
  by_cases h : e.1 = n <;> simp [uppersIn, List.filter_cons, h]

theorem lowersIn_cons (e : NodeId × NodeId) (E : List (NodeId × NodeId))
    (m : NodeId) :
    lowersIn (e :: E) m =
      if e.2 = m then e.1 :: lowersIn E m else lowersIn E m := by
  by_cases h : e.2 = m <;> simp [lowersIn, List.filter_cons, h]

theorem mem_uppersIn (E : List (NodeId × NodeId)) (n u : NodeId) :
    u ∈ uppersIn E n ↔ (n, u) ∈ E := by
  simp only [uppersIn, List.mem_map, List.mem_filter, beq_iff_eq]
  constructor
  · rintro ⟨e, ⟨he, h1⟩, h2⟩
    have : e = (n, u) := by
      rcases e with ⟨a, b⟩
      simp at h1 h2
      rw [h1, h2]
    rw [← this]
    exact he
  · intro h
    exact ⟨(n, u), ⟨h, rfl⟩, rfl⟩

theorem mem_lowersIn (E : List (NodeId × NodeId)) (m x : NodeId) :
    x ∈ lowersIn E m ↔ (x, m) ∈ E := by
  simp only [lowersIn, List.mem_map, List.mem_filter, beq_iff_eq]
  constructor
  · rintro ⟨e, ⟨he, h1⟩, h2⟩
    have : e = (x, m) := by
      rcases e with ⟨a, b⟩
      simp at h1 h2
      rw [h1, h2]
    rw [← this]
    exact he
  · intro h
    exact ⟨(x, m), ⟨h, rfl⟩, rfl⟩

theorem nodup_uppersIn (E : List (NodeId × NodeId)) (n : NodeId)
    (h : E.Nodup) : (uppersIn E n).Nodup := by
  induction E with
  | nil => simp [uppersIn]
  | cons e E ih =>
    rw [List.nodup_cons] at h
    rw [uppersIn_cons]
    by_cases he : e.1 = n
    · rw [if_pos he, List.nodup_cons]
      refine ⟨?_, ih h.2⟩
      intro hmem
      have : (n, e.2) ∈ E := (mem_uppersIn E n e.2).1 hmem
      apply h.1
      have he2 : e = (n, e.2) := by
        rcases e with ⟨a, b⟩
        simp at he ⊢
        exact he
      rw [he2]
      exact this
    · rw [if_neg he]
      exact ih h.2

theorem nodup_lowersIn (E : List (NodeId × NodeId)) (m : NodeId)
    (h : E.Nodup) : (lowersIn E m).Nodup := by
  induction E with
  | nil => simp [lowersIn]
  | cons e E ih =>
    rw [List.nodup_cons] at h
    rw [lowersIn_cons]
    by_cases he : e.2 = m
    · rw [if_pos he, List.nodup_cons]
      refine ⟨?_, ih h.2⟩
      intro hmem
      have : (e.1, m) ∈ E := (mem_lowersIn E m e.1).1 hmem
      apply h.1
      have he2 : e = (e.1, m) := by
        rcases e with ⟨a, b⟩
        simp at he ⊢
        exact he
      rw [he2]
      exact this
    · rw [if_neg he]
      exact ih h.2

theorem lowersIn_eq_nil (E : List (NodeId × NodeId)) (m : NodeId)
    (h : ∀ e ∈ E, ¬ e.2 = m) : lowersIn E m = [] := by
  rw [lowersIn, List.filter_eq_nil.2, List.map_nil]
  intro e he
  simp [h e he]

theorem uppersIn_eq_nil (E : List (NodeId × NodeId)) (n : NodeId)
    (h : ∀ e ∈ E, ¬ e.1 = n) : uppersIn E n = [] := by
  rw [uppersIn, List.filter_eq_nil.2, List.map_nil]
  intro e he
  simp [h e he]

theorem Fagg_of_lowers_nil (E : List (NodeId × NodeId)) (m : NodeId)
    (h : lowersIn E m = []) : ∀ f, Fagg f E m = 0 := by
  intro f
  cases f with
  | zero => rfl
  | succ f => rw [Fagg, h]; rfl

theorem Fagg_nil (m : NodeId) : ∀ f, Fagg f [] m = 0 :=
  Fagg_of_lowers_nil [] m rfl

theorem pathsE_stable (E : List (NodeId × NodeId)) (hlay : ELayered E) :
    ∀ (f g : Nat) (n m : NodeId), n.depth < f → n.depth < g →
      pathsE f E n m = pathsE g E n m := by
  intro f
  induction f with
  | zero => intro g n m hf _; exact absurd hf (Nat.not_lt_zero _)
  | succ f ih =>
    intro g n m hf hg
    cases g with
    | zero => exact absurd hg (Nat.not_lt_zero _)
    | succ g =>
      rw [pathsE, pathsE]
      congr 1
      refine sum_map_congr _ _ _ (fun u hu => ?_)
      have hdep : n.depth = u.depth + 1 :=
        hlay (n, u) ((mem_uppersIn E n u).1 hu)
      exact ih g u m (by omega) (by omega)

theorem Fagg_stable (E : List (NodeId × NodeId)) (hlay : ELayered E) :
    ∀ (f g : Nat) (m : NodeId),
      (∀ e ∈ E, e.1.depth < f + m.depth) →
      (∀ e ∈ E, e.1.depth < g + m.depth) →
      Fagg f E m = Fagg g E m := by
  intro f
  induction f with
  | zero =>
    intro g m hf _
    have hnil : lowersIn E m = [] := by
      refine lowersIn_eq_nil E m (fun e he h2 => ?_)
      have h1 := hlay e he
      have h3 := hf e he
      rw [h2] at h1
      omega
    rw [show Fagg 0 E m = 0 from rfl, Fagg_of_lowers_nil E m hnil g]
  | succ f ih =>
    intro g m hf hg
    cases g with
    | zero =>
      have hnil : lowersIn E m = [] := by
        refine lowersIn_eq_nil E m (fun e he h2 => ?_)
        have h1 := hlay e he
        have h3 := hg e he
        rw [h2] at h1
        omega
      rw [Fagg_of_lowers_nil E m hnil (f + 1)]
      rfl
    | succ g =>
      rw [Fagg, Fagg]
      refine sum_map_congr _ _ _ (fun x hx => ?_)
      have hdep : x.depth = m.depth + 1 :=
        hlay (x, m) ((mem_lowersIn E m x).1 hx)
      have h1 : ∀ e ∈ E, e.1.depth < f + x.depth := fun e he => by
        have := hf e he; omega
      have h2 : ∀ e ∈ E, e.1.depth < g + x.depth := fun e he => by
        have := hg e he; omega
      rw [ih g x h1 h2]

/-- Adding an edge strictly below a node does not change the aggregate at
nodes strictly above the edge's upper endpoint... more precisely, the
aggregate of any node strictly deeper than P is unaffected by a new edge
into P, because the downward recursion from such a node never reaches
P. -/
theorem Fagg_cons_of_depth_gt (E : List (NodeId × NodeId)) (X P : NodeId)
    (hlay : ELayered E) :
    ∀ (f : Nat) (m : NodeId), P.depth < m.depth →
      Fagg f ((X, P) :: E) m = Fagg f E m := by
  intro f
  induction f with
  | zero => intro m _; rfl
  | succ f ih =>
    intro m hm
    rw [Fagg, Fagg, lowersIn_cons]
    have hne : ¬ (((X, P) : NodeId × NodeId).2 = m) := by
      intro h
      rw [show ((X, P) : NodeId × NodeId).2 = P from rfl] at h
      rw [h] at hm
      omega
    rw [if_neg hne]
    refine sum_map_congr _ _ _ (fun x hx => ?_)
    have hdep : x.depth = m.depth + 1 :=
      hlay (x, m) ((mem_lowersIn E m x).1 hx)
    rw [ih x (by omega)]

/-- Upward paths from a node at or above P never traverse an edge whose
lower endpoint is strictly deeper than P. -/
theorem pathsE_cons_lower (E : List (NodeId × NodeId)) (X P : NodeId)
    (hlay : ELayered E) (hXP : X.depth = P.depth + 1) :
    ∀ (f : Nat) (n m : NodeId), n.depth ≤ P.depth →
      pathsE f ((X, P) :: E) n m = pathsE f E n m := by
  intro f
  induction f with
  | zero => intro n m _; rfl
  | succ f ih =>
    intro n m hn
    rw [pathsE, pathsE, uppersIn_cons]
    have hne : ¬ (((X, P) : NodeId × NodeId).1 = n) := by
      intro h
      rw [show ((X, P) : NodeId × NodeId).1 = X from rfl] at h
      rw [← h] at hn
      omega
    rw [if_neg hne]
    congr 1
    refine sum_map_congr _ _ _ (fun u hu => ?_)
    have hdep : n.depth = u.depth + 1 :=
      hlay (n, u) ((mem_uppersIn E n u).1 hu)
    exact ih u m (by omega)

theorem sum_map_sub {α : Type v} (l : List α) (f g : α → Int) :
    (l.map (fun x => f x - g x)).sum = (l.map f).sum - (l.map g).sum := by
  induction l with
  | nil => rfl
  | cons a l ih =>
    simp only [List.map_cons, List.sum_cons, ih]
    ring

theorem sum_map_mul_left {α : Type v} (l : List α) (c : Int) (f : α → Int) :
    (l.map (fun x => c * f x)).sum = c * (l.map f).sum := by
  induction l with
  | nil => simp
  | cons a l ih =>
    simp only [List.map_cons, List.sum_cons, ih]
    ring

theorem sum_comm_swap {α β : Type v} (A : List α) (B : List β)
    (g : α → β → Int) :
    (A.map (fun a => (B.map (fun b => g a b)).sum)).sum
      = (B.map (fun b => (A.map (fun a => g a b)).sum)).sum := by
  induction A with
  | nil =>
    rw [List.map_nil, List.sum_nil]
    symm
    rw [sum_map_congr B (fun b => (([] : List α).map (fun a => g a b)).sum)
      (fun _ => (0 : Int)) (fun b _ => by
        show (([] : List α).map (fun a => g a b)).sum = (0 : Int)
        rw [List.map_nil, List.sum_nil]),
      sum_map_zero]
  | cons a A ih =>
    have hstep : ∀ b, ((a :: A).map (fun a' => g a' b)).sum
        = g a b + (A.map (fun a' => g a' b)).sum := fun b => by
      rw [List.map_cons, List.sum_cons]
    rw [List.map_cons, List.sum_cons, ih, ← sum_map_add]
    exact (sum_map_congr _ _ _ (fun b _ => (hstep b).symm)).symm

theorem sum_map_indicator {α : Type v} [DecidableEq α] (l : List α) (b : α) :
    (l.map (fun a => if a = b then (1 : Int) else 0)).sum
      = (l.count b : Int) := by
  induction l with
  | nil => rfl
  | cons a l ih =>
    rw [List.map_cons, List.sum_cons, ih, List.count_cons]
    by_cases h : a = b <;> simp [h] <;> ring

theorem sum_map_indicator_left {α : Type v} [DecidableEq α] (l : List α)
    (b : α) :
    (l.map (fun a => if b = a then (1 : Int) else 0)).sum
      = (l.count b : Int) := by
  rw [sum_map_congr l (fun a => if b = a then (1 : Int) else 0)
    (fun a => if a = b then (1 : Int) else 0)
    (fun a _ => by
      show (if b = a then (1 : Int) else 0) = (if a = b then (1 : Int) else 0)
      by_cases h : a = b
      · rw [if_pos h, if_pos h.symm]
      · rw [if_neg h, if_neg (fun hh => h hh.symm)])]
  exact sum_map_indicator l b

/-- The occurrences of m among the uppers of P are exactly the occurrences
of P among the lowers of m: both count the copies of the edge (P, m). -/
theorem count_uppersIn_eq_count_lowersIn (E : List (NodeId × NodeId))
    (P m : NodeId) :
    (uppersIn E P).count m = (lowersIn E m).count P := by
  induction E with
  | nil => rfl
  | cons e E ih =>
    rw [uppersIn_cons, lowersIn_cons]
    by_cases h1 : e.1 = P <;> by_cases h2 : e.2 = m <;>
      simp [List.count_cons, h1, h2, ih]

/-- The bridge between the two recursions for path counting: stripping the
last edge of a path (at the m side) instead of the first (at the P side).
Both count the upward paths from P to m of fewer than fuel + 1 hops. -/
theorem pathsE_bridge (E : List (NodeId × NodeId)) :
    ∀ (f : Nat) (P m : NodeId),
      pathsE (f + 1) E P m = (if P = m then 1 else 0)
        + ((lowersIn E m).map (fun Y => pathsE f E P Y)).sum := by
  intro f
  induction f with
  | zero =>
    intro P m
    rw [pathsE]
    congr 1
    rw [sum_map_congr (uppersIn E P) (fun u => pathsE 0 E u m)
      (fun _ => (0 : Int)) (fun u _ => rfl), sum_map_zero,
      sum_map_congr (lowersIn E m) (fun Y => pathsE 0 E P Y)
      (fun _ => (0 : Int)) (fun Y _ => rfl), sum_map_zero]
  | succ f ih =>
    intro P m
    rw [pathsE]
    rw [sum_map_congr (uppersIn E P) _
      (fun u => (if u = m then (1 : Int) else 0)
        + ((lowersIn E m).map (fun Y => pathsE f E u Y)).sum)
      (fun u _ => ih u m)]
    rw [sum_map_add, sum_map_indicator, sum_comm_swap]
    have hswap : ((lowersIn E m).map
        (fun Y => ((uppersIn E P).map (fun u => pathsE f E u Y)).sum)).sum
        = ((lowersIn E m).map
          (fun Y => pathsE (f + 1) E P Y
            - (if P = Y then (1 : Int) else 0))).sum := by
      refine sum_map_congr _ _ _ (fun Y _ => ?_)
      rw [pathsE]
      ring
    rw [hswap, sum_map_sub, sum_map_indicator_left,
      count_uppersIn_eq_count_lowersIn]
    ring

theorem lowersIn_cons_mk (X P : NodeId) (E : List (NodeId × NodeId))
    (m : NodeId) :
    lowersIn ((X, P) :: E) m =
      if P = m then X :: lowersIn E m else lowersIn E m := by
  simp [lowersIn_cons]

theorem uppersIn_cons_mk (X P : NodeId) (E : List (NodeId × NodeId))
    (n : NodeId) :
    uppersIn ((X, P) :: E) n =
      if X = n then P :: uppersIn E n else uppersIn E n := by
  simp [uppersIn_cons]

/-- The key insertion law: adding one layered edge (X, P) to a layered
edge list adds the inserted child's contribution (one plus its own
aggregate) to every node exactly once per upward path from P to it. -/
theorem Fagg_insert_edge (E : List (NodeId × NodeId)) (X P : NodeId)
    (hlay : ELayered E) (hXP : X.depth = P.depth + 1)
    (fX : Nat) (hfX : ∀ e ∈ E, e.1.depth < fX + X.depth) :
    ∀ (f : Nat) (m : NodeId), (∀ e ∈ E, e.1.depth < f + m.depth) →
      Fagg f ((X, P) :: E) m
        = Fagg f E m + (1 + Fagg fX E X) * pathsE f E P m := by
  intro f
  induction f with
  | zero =>
    intro m _
    rw [show Fagg 0 ((X, P) :: E) m = 0 from rfl,
      show Fagg 0 E m = 0 from rfl, show pathsE 0 E P m = 0 from rfl]
    ring
  | succ f ih =>
    intro m hm
    have htail : ((lowersIn E m).map
        (fun x => 1 + Fagg f ((X, P) :: E) x)).sum
        = ((lowersIn E m).map (fun x => 1 + Fagg f E x)).sum
          + (1 + Fagg fX E X)
            * ((lowersIn E m).map (fun Y => pathsE f E P Y)).sum := by
      rw [sum_map_congr (lowersIn E m)
        (fun x => 1 + Fagg f ((X, P) :: E) x)
        (fun x => (1 + Fagg f E x)
          + (1 + Fagg fX E X) * pathsE f E P x)
        (fun x hx => by
          show 1 + Fagg f ((X, P) :: E) x
            = (1 + Fagg f E x) + (1 + Fagg fX E X) * pathsE f E P x
          have hdep : x.depth = m.depth + 1 :=
            hlay (x, m) ((mem_lowersIn E m x).1 hx)
          have hthr : ∀ e ∈ E, e.1.depth < f + x.depth := fun e he => by
            have := hm e he; omega
          rw [ih x hthr]
          ring)]
      rw [sum_map_add, sum_map_mul_left]
    rw [Fagg, Fagg, lowersIn_cons_mk]
    by_cases hPm : P = m
    · rw [if_pos hPm, List.map_cons, List.sum_cons, htail]
      have hXm : X.depth = m.depth + 1 := by rw [hXP, hPm]
      have hXterm : Fagg f ((X, P) :: E) X = Fagg f E X :=
        Fagg_cons_of_depth_gt E X P hlay f X (by omega)
      have hstab : Fagg f E X = Fagg fX E X := by
        refine Fagg_stable E hlay f fX X ?_ hfX
        intro e he
        have := hm e he
        omega
      rw [hXterm, hstab, pathsE_bridge E f P m, if_pos hPm]
      ring
    · rw [if_neg hPm, htail, pathsE_bridge E f P m, if_neg hPm]
      ring

/-- When the edge list enumerates exactly the live upper links of the
state (each exactly once), path counts agree. -/
theorem paths_eq_pathsE {Info : Type u} (s : TreeState Info)
    (E : List (NodeId × NodeId)) (hW : StructWF s) (hnd : E.Nodup)
    (hc : ∀ x p : NodeId, (x, p) ∈ E ↔
      0 < CountHashSet.count (s x).upper p) :
    ∀ (f : Nat) (n m : NodeId), paths f s n m = pathsE f E n m := by
  intro f
  induction f with
  | zero => intro n m; rfl
  | succ f ih =>
    intro n m
    rw [paths, pathsE]
    congr 1
    have hperm : (upl s n).Perm (uppersIn E n) := by
      refine (List.perm_ext_iff_of_nodup ?_ ?_).2 ?_
      · exact (hW n).2
      · exact nodup_uppersIn E n hnd
      · intro u
        rw [mem_uppersIn]
        have h1 : u ∈ upl s n ↔ 0 < CountHashSet.count (s n).upper u :=
          CountHashSet.mem_iter_iff_pos _ _ (hW n).1
        rw [h1, hc n u]
    calc ((upl s n).map (fun u => paths f s u m)).sum
        = ((upl s n).map (fun u => pathsE f E u m)).sum :=
          sum_map_congr _ _ _ (fun u _ => ih u m)
      _ = ((uppersIn E n).map (fun u => pathsE f E u m)).sum :=
          (hperm.map _).sum_eq

theorem Fagg_perm :
    ∀ (f : Nat) (E₁ E₂ : List (NodeId × NodeId)), E₁.Perm E₂ →
      ∀ m, Fagg f E₁ m = Fagg f E₂ m := by
  intro f
  induction f with
  | zero => intro _ _ _ _; rfl
  | succ f ih =>
    intro E₁ E₂ hp m
    rw [Fagg, Fagg]
    have hl : (lowersIn E₁ m).Perm (lowersIn E₂ m) :=
      (hp.filter _).map _
    calc ((lowersIn E₁ m).map (fun x => 1 + Fagg f E₁ x)).sum
        = ((lowersIn E₁ m).map (fun x => 1 + Fagg f E₂ x)).sum :=
          sum_map_congr _ _ _ (fun x _ => by rw [ih E₁ E₂ hp x])
      _ = ((lowersIn E₂ m).map (fun x => 1 + Fagg f E₂ x)).sum :=
          (hl.map _).sum_eq

theorem exists_EB (E : List (NodeId × NodeId)) :
    ∃ f : Nat, ∀ e ∈ E, e.1.depth < f := by
  induction E with
  | nil => exact ⟨1, by simp⟩
  | cons e E ih =>
    obtain ⟨f, hf⟩ := ih
    refine ⟨max f (e.1.depth + 1), ?_⟩
    intro e' he'
    rcases List.mem_cons.1 he' with he' | he'
    · rw [he']
      have := Nat.le_max_right f (e.1.depth + 1)
      omega
    · have h1 := hf e' he'
      have := Nat.le_max_left f (e.1.depth + 1)
      omega

section NonFiring

variable {Info Change RootInfo RootInfoType : Type u}
variable (ctx : AggregationContext Info Change RootInfo RootInfoType)

/-- When the upper is already linked, add_upper only bumps the count. -/
theorem add_upper_eq_update_of_pos (fuel : Nat) (s : TreeState Info)
    (n upper : NodeId)
    (hpos : ∀ e ∈ (s n).upper, 0 < e.2)
    (h : 0 < CountHashSet.count (s n).upper upper) :
    TopTree.add_upper ctx fuel s n upper
      = Function.update s n
          ⟨(s n).data, (CountHashSet.add (s n).upper upper).1⟩ := by
  rw [TopTree.add_upper]
  rcases hadd : CountHashSet.add (s n).upper upper with ⟨l', b⟩
  have hiff := CountHashSet.add_snd_iff (s n).upper upper hpos
  rw [hadd] at hiff
  rcases b with _ | _
  · rfl
  · exfalso
    simp at hiff
    omega

/-- When the removal is not the last one, remove_upper only drops the
count. -/
theorem remove_upper_eq_update_of_not_one (fuel : Nat) (s : TreeState Info)
    (n upper : NodeId)
    (hpos : ∀ e ∈ (s n).upper, 0 < e.2)
    (h : ¬ CountHashSet.count (s n).upper upper = 1) :
    TopTree.remove_upper ctx fuel s n upper
      = Function.update s n
          ⟨(s n).data, (CountHashSet.remove (s n).upper upper).1⟩ := by
  rw [TopTree.remove_upper]
  rcases hrem : CountHashSet.remove (s n).upper upper with ⟨l', b⟩
  have hiff := CountHashSet.remove_snd_iff (s n).upper upper hpos
  rw [hrem] at hiff
  rcases b with _ | _
  · rfl
  · exfalso
    simp at hiff
    exact h hiff

end NonFiring

/-- The refinement invariant for the counting policy: the state's upper
multisets are well formed, the edge list enumerates the live upward links
exactly once each, it is layered, and every node's info equals the
from-scratch aggregate over the edge list at every adequate fuel. -/
def GoodInv (s : TreeState Int) (E : List (NodeId × NodeId)) : Prop :=
  StructWF s ∧ E.Nodup ∧ ELayered E ∧
    (∀ x p : NodeId, (x, p) ∈ E ↔ 0 < CountHashSet.count (s x).upper p) ∧
    (∀ (m : NodeId) (f : Nat), (∀ e ∈ E, e.1.depth < f) →
      (s m).data = Fagg f E m)

theorem goodInv_init : GoodInv (initState countCtx) [] := by
  refine ⟨initState_structWF countCtx, List.nodup_nil, ?_, ?_, ?_⟩
  · intro e he; simp at he
  · intro x p
    simp [initState, CountHashSet.count]
  · intro m f _
    rw [Fagg_nil]
    rfl

theorem goodInv_add_stale (s : TreeState Int) (E : List (NodeId × NodeId))
    (h : GoodInv s E) (X P : NodeId)
    (hcnt : 0 < CountHashSet.count (s X).upper P) :
    GoodInv (TopTree.add_upper countCtx (P.depth + 1) s X P) E := by
  obtain ⟨hW, hnd, hlay, hcorr, hdata⟩ := h
  rw [add_upper_eq_update_of_pos countCtx _ s X P (hW X).1 hcnt]
  have hupp : ∀ k, ((Function.update s X
      ⟨(s X).data, (CountHashSet.add (s X).upper P).1⟩) k).upper
      = if k = X then (CountHashSet.add (s X).upper P).1
        else (s k).upper := by
    intro k
    by_cases hk : k = X
    · subst hk; simp
    · rw [Function.update_noteq hk, if_neg hk]
  have hdat : ∀ k, ((Function.update s X
      ⟨(s X).data, (CountHashSet.add (s X).upper P).1⟩) k).data
      = (s k).data := by
    intro k
    by_cases hk : k = X
    · subst hk; simp
    · rw [Function.update_noteq hk]
  refine ⟨structWF_update_add s X P _ hW, hnd, hlay, ?_, ?_⟩
  · intro x p
    rw [hupp x]
    by_cases hx : x = X
    · subst hx
      rw [if_pos rfl]
      by_cases hp : p = P
      · subst hp
        rw [CountHashSet.count_add_self]
        constructor
        · intro _; omega
        · intro _; exact (hcorr _ _).2 hcnt
      · rw [CountHashSet.count_add_other _ _ _ hp]
        exact hcorr _ _
    · rw [if_neg hx]
      exact hcorr x p
  · intro m f hEB
    rw [hdat m]
    exact hdata m f hEB

theorem goodInv_remove_not_one (s : TreeState Int)
    (E : List (NodeId × NodeId)) (h : GoodInv s E) (X P : NodeId)
    (hcnt : ¬ CountHashSet.count (s X).upper P = 1) :
    GoodInv (TopTree.remove_upper countCtx (P.depth + 1) s X P) E := by
  obtain ⟨hW, hnd, hlay, hcorr, hdata⟩ := h
  rw [remove_upper_eq_update_of_not_one countCtx _ s X P (hW X).1 hcnt]
  have hupp : ∀ k, ((Function.update s X
      ⟨(s X).data, (CountHashSet.remove (s X).upper P).1⟩) k).upper
      = if k = X then (CountHashSet.remove (s X).upper P).1
        else (s k).upper := by
    intro k
    by_cases hk : k = X
    · subst hk; simp
    · rw [Function.update_noteq hk, if_neg hk]
  have hdat : ∀ k, ((Function.update s X
      ⟨(s X).data, (CountHashSet.remove (s X).upper P).1⟩) k).data
      = (s k).data := by
    intro k
    by_cases hk : k = X
    · subst hk; simp
    · rw [Function.update_noteq hk]
  refine ⟨structWF_update_remove s X P _ hW, hnd, hlay, ?_, ?_⟩
  · intro x p
    rw [hupp x]
    by_cases hx : x = X
    · subst hx
      rw [if_pos rfl]
      by_cases hp : p = P
      · subst hp
        rw [CountHashSet.count_remove_self _ _ (hW x).2]
        rw [hcorr x p]
        omega
      · rw [CountHashSet.count_remove_other _ _ _ hp]
        exact hcorr _ _
    · rw [if_neg hx]
      exact hcorr x p
  · intro m f hEB
    rw [hdat m]
    exact hdata m f hEB

theorem goodInv_add_fresh (s : TreeState Int) (E : List (NodeId × NodeId))
    (h : GoodInv s E) (X P : NodeId) (hXP : X.depth = P.depth + 1)
    (hcnt : CountHashSet.count (s X).upper P = 0) :
    GoodInv (TopTree.add_upper countCtx (P.depth + 1) s X P)
      ((X, P) :: E) := by
  obtain ⟨hW, hnd, hlay, hcorr, hdata⟩ := h
  rw [add_upper_count_fresh (P.depth + 1) s X P (hW X).1 hcnt]
  have hupper₁ : ∀ k, ((Function.update s X
      ⟨(s X).data, (CountHashSet.add (s X).upper P).1⟩) k).upper
      = if k = X then (CountHashSet.add (s X).upper P).1
        else (s k).upper := by
    intro k
    by_cases hk : k = X
    · subst hk; simp
    · rw [Function.update_noteq hk, if_neg hk]
  have hdata₁ : ∀ k, ((Function.update s X
      ⟨(s X).data, (CountHashSet.add (s X).upper P).1⟩) k).data
      = (s k).data := by
    intro k
    by_cases hk : k = X
    · subst hk; simp
    · rw [Function.update_noteq hk]
  have hW₁ : StructWF (Function.update s X
      ⟨(s X).data, (CountHashSet.add (s X).upper P).1⟩) :=
    structWF_update_add s X P _ hW
  have hnotinE : (X, P) ∉ E := by
    intro hmem
    have := (hcorr X P).1 hmem
    omega
  have hnd' : ((X, P) :: E).Nodup := List.nodup_cons.2 ⟨hnotinE, hnd⟩
  have hlay' : ELayered ((X, P) :: E) := by
    intro e he
    rcases List.mem_cons.1 he with he | he
    · rw [he]; exact hXP
    · exact hlay e he
  have hcorr₁ : ∀ x p : NodeId, ((x, p) ∈ (X, P) :: E ↔
      0 < CountHashSet.count ((Function.update s X
        ⟨(s X).data, (CountHashSet.add (s X).upper P).1⟩) x).upper p) := by
    intro x p
    rw [hupper₁ x]
    by_cases hx : x = X
    · subst hx
      rw [if_pos rfl]
      by_cases hp : p = P
      · subst hp
        rw [CountHashSet.count_add_self, hcnt]
        constructor
        · intro _; omega
        · intro _; exact List.mem_cons_self _ _
      · rw [CountHashSet.count_add_other _ _ _ hp, List.mem_cons]
        constructor
        · intro hc
          rcases hc with hc | hc
          · exact absurd (congrArg Prod.snd hc) hp
          · exact (hcorr _ _).1 hc
        · intro hc
          exact Or.inr ((hcorr _ _).2 hc)
    · rw [if_neg hx, List.mem_cons]
      constructor
      · intro hc
        rcases hc with hc | hc
        · exact absurd (congrArg Prod.fst hc) hx
        · exact (hcorr _ _).1 hc
      · intro hc
        exact Or.inr ((hcorr _ _).2 hc)
  have hupper₂ : ∀ k, ((TopTree.child_change countCtx (P.depth + 1)
      (Function.update s X
        ⟨(s X).data, (CountHashSet.add (s X).upper P).1⟩)
      P ((s X).data + 1)) k).upper
      = ((Function.update s X
        ⟨(s X).data, (CountHashSet.add (s X).upper P).1⟩) k).upper :=
    fun k => child_change_upper countCtx _ _ _ _ _
  refine ⟨?_, hnd', hlay', ?_, ?_⟩
  · intro k
    rw [hupper₂ k]
    exact hW₁ k
  · intro x p
    rw [hupper₂ x]
    exact hcorr₁ x p
  · intro m f hEB
    have hEBE : ∀ e ∈ E, e.1.depth < f := fun e he =>
      hEB e (List.mem_cons_of_mem _ he)
    have hXf : X.depth < f := hEB (X, P) (List.mem_cons_self _ _)
    have h2 : ((TopTree.child_change countCtx (P.depth + 1)
        (Function.update s X
          ⟨(s X).data, (CountHashSet.add (s X).upper P).1⟩)
        P ((s X).data + 1)) m).data
        = (s m).data + ((s X).data + 1)
            * paths (P.depth + 1)
              (Function.update s X
                ⟨(s X).data, (CountHashSet.add (s X).upper P).1⟩) P m := by
      rw [child_change_count_data, hdata₁]
    have hpathsE : paths (P.depth + 1)
        (Function.update s X
          ⟨(s X).data, (CountHashSet.add (s X).upper P).1⟩) P m
        = pathsE (P.depth + 1) ((X, P) :: E) P m :=
      paths_eq_pathsE _ _ hW₁ hnd' hcorr₁ _ P m
    have hdrop : pathsE (P.depth + 1) ((X, P) :: E) P m
        = pathsE (P.depth + 1) E P m :=
      pathsE_cons_lower E X P hlay hXP _ P m (le_refl _)
    have hstabP : pathsE (P.depth + 1) E P m = pathsE f E P m :=
      pathsE_stable E hlay _ f P m (by omega) (by omega)
    have hkey : Fagg f ((X, P) :: E) m
        = Fagg f E m + (1 + Fagg f E X) * pathsE f E P m :=
      Fagg_insert_edge E X P hlay hXP f
        (fun e he => by have := hEBE e he; omega) f m
        (fun e he => by have := hEBE e he; omega)
    calc ((TopTree.child_change countCtx (P.depth + 1)
        (Function.update s X
          ⟨(s X).data, (CountHashSet.add (s X).upper P).1⟩)
        P ((s X).data + 1)) m).data
        = (s m).data + ((s X).data + 1)
            * paths (P.depth + 1)
              (Function.update s X
                ⟨(s X).data, (CountHashSet.add (s X).upper P).1⟩) P m := h2
      _ = Fagg f E m + (Fagg f E X + 1) * pathsE f E P m := by
          rw [hpathsE, hdrop, hstabP, hdata m f hEBE, hdata X f hEBE]
      _ = Fagg f E m + (1 + Fagg f E X) * pathsE f E P m := by ring
      _ = Fagg f ((X, P) :: E) m := hkey.symm

/-- Removal of the first occurrence of an edge from an edge list, with
propositional equality (avoiding any boolean-equality instance). -/
def eraseEdge : List (NodeId × NodeId) → (NodeId × NodeId) →
    List (NodeId × NodeId)
  | [], _ => []
  | e' :: E, e => if e' = e then E else e' :: eraseEdge E e

theorem perm_cons_eraseEdge :
    ∀ (E : List (NodeId × NodeId)) (e : NodeId × NodeId), e ∈ E →
      E.Perm (e :: eraseEdge E e) := by
  intro E
  induction E with
  | nil => intro e he; simp at he
  | cons e' E ih =>
    intro e he
    rw [eraseEdge]
    by_cases hh : e' = e
    · rw [if_pos hh, hh]
    · rw [if_neg hh]
      have hmem : e ∈ E := by
        rcases List.mem_cons.1 he with h | h
        · exact absurd h.symm hh
        · exact h
      exact ((ih e hmem).cons e').trans (List.Perm.swap e e' _)

theorem mem_eraseEdge_of_ne (a e : NodeId × NodeId) (hne : a ≠ e) :
    ∀ E : List (NodeId × NodeId), (a ∈ eraseEdge E e ↔ a ∈ E) := by
  intro E
  induction E with
  | nil => rfl
  | cons e' E ih =>
    rw [eraseEdge]
    by_cases hh : e' = e
    · rw [if_pos hh, List.mem_cons]
      constructor
      · exact Or.inr
      · intro h
        rcases h with h | h
        · exact absurd (h.trans hh) hne
        · exact h
    · rw [if_neg hh, List.mem_cons, List.mem_cons, ih]

theorem mem_of_mem_eraseEdge (a e : NodeId × NodeId) :
    ∀ E : List (NodeId × NodeId), a ∈ eraseEdge E e → a ∈ E := by
  intro E
  induction E with
  | nil => intro h; simp [eraseEdge] at h
  | cons e' E ih =>
    rw [eraseEdge]
    by_cases hh : e' = e
    · rw [if_pos hh]
      exact fun h => List.mem_cons_of_mem _ h
    · rw [if_neg hh, List.mem_cons, List.mem_cons]
      intro h
      rcases h with h | h
      · exact Or.inl h
      · exact Or.inr (ih h)

theorem goodInv_remove_last (s : TreeState Int) (E : List (NodeId × NodeId))
    (h : GoodInv s E) (X P : NodeId) (hXP : X.depth = P.depth + 1)
    (hcnt : CountHashSet.count (s X).upper P = 1) :
    GoodInv (TopTree.remove_upper countCtx (P.depth + 1) s X P)
      (eraseEdge E (X, P)) := by
  obtain ⟨hW, hnd, hlay, hcorr, hdata⟩ := h
  rw [remove_upper_count_one (P.depth + 1) s X P (hW X).1 hcnt]
  have hmemE : (X, P) ∈ E := (hcorr X P).2 (by omega)
  have hperm : E.Perm ((X, P) :: eraseEdge E (X, P)) :=
    perm_cons_eraseEdge E (X, P) hmemE
  have hndCons : ((X, P) :: eraseEdge E (X, P)).Nodup := hperm.nodup_iff.1 hnd
  have hnd' : (eraseEdge E (X, P)).Nodup := (List.nodup_cons.1 hndCons).2
  have hnotin : (X, P) ∉ eraseEdge E (X, P) := (List.nodup_cons.1 hndCons).1
  have hlay' : ELayered (eraseEdge E (X, P)) := fun e he =>
    hlay e (mem_of_mem_eraseEdge e (X, P) E he)
  have hupper₁ : ∀ k, ((Function.update s X
      ⟨(s X).data, (CountHashSet.remove (s X).upper P).1⟩) k).upper
      = if k = X then (CountHashSet.remove (s X).upper P).1
        else (s k).upper := by
    intro k
    by_cases hk : k = X
    · subst hk; simp
    · rw [Function.update_noteq hk, if_neg hk]
  have hdata₁ : ∀ k, ((Function.update s X
      ⟨(s X).data, (CountHashSet.remove (s X).upper P).1⟩) k).data
      = (s k).data := by
    intro k
    by_cases hk : k = X
    · subst hk; simp
    · rw [Function.update_noteq hk]
  have hW₁ : StructWF (Function.update s X
      ⟨(s X).data, (CountHashSet.remove (s X).upper P).1⟩) :=
    structWF_update_remove s X P _ hW
  have hcorr₁ : ∀ x p : NodeId, ((x, p) ∈ eraseEdge E (X, P) ↔
      0 < CountHashSet.count ((Function.update s X
        ⟨(s X).data, (CountHashSet.remove (s X).upper P).1⟩) x).upper p) := by
    intro x p
    rw [hupper₁ x]
    by_cases hx : x = X
    · subst hx
      rw [if_pos rfl]
      by_cases hp : p = P
      · subst hp
        rw [CountHashSet.count_remove_self _ _ (hW x).2, hcnt]
        constructor
        · intro hmem
          exact absurd hmem hnotin
        · intro hpos
          exact absurd hpos (by omega)
      · rw [CountHashSet.count_remove_other _ _ _ hp]
        have hne : (x, p) ≠ (x, P) := fun hh => hp (congrArg Prod.snd hh)
        rw [mem_eraseEdge_of_ne _ _ hne]
        exact hcorr x p
    · rw [if_neg hx]
      have hne : (x, p) ≠ (X, P) := fun hh => hx (congrArg Prod.fst hh)
      rw [mem_eraseEdge_of_ne _ _ hne]
      exact hcorr x p
  have hupper₂ : ∀ k, ((TopTree.child_change countCtx (P.depth + 1)
      (Function.update s X
        ⟨(s X).data, (CountHashSet.remove (s X).upper P).1⟩)
      P (-((s X).data + 1))) k).upper
      = ((Function.update s X
        ⟨(s X).data, (CountHashSet.remove (s X).upper P).1⟩) k).upper :=
    fun k => child_change_upper countCtx _ _ _ _ _
  refine ⟨?_, hnd', hlay', ?_, ?_⟩
  · intro k
    rw [hupper₂ k]
    exact hW₁ k
  · intro x p
    rw [hupper₂ x]
    exact hcorr₁ x p
  · intro m f hEB
    have hEBF : ∀ e ∈ E, e.1.depth < f + X.depth + 1 := by
      intro e he
      by_cases he' : e = (X, P)
      · rw [he']
        show X.depth < f + X.depth + 1
        omega
      · have hmem' : e ∈ eraseEdge E (X, P) :=
          (mem_eraseEdge_of_ne _ _ he' E).2 he
        have := hEB e hmem'
        omega
    have hEBF' : ∀ e ∈ eraseEdge E (X, P), e.1.depth < f + X.depth + 1 :=
      fun e he => by have := hEB e he; omega
    have h2 : ((TopTree.child_change countCtx (P.depth + 1)
        (Function.update s X
          ⟨(s X).data, (CountHashSet.remove (s X).upper P).1⟩)
        P (-((s X).data + 1))) m).data
        = (s m).data + (-((s X).data + 1))
            * paths (P.depth + 1)
              (Function.update s X
                ⟨(s X).data, (CountHashSet.remove (s X).upper P).1⟩) P m := by
      rw [child_change_count_data, hdata₁]
    have hpathsE : paths (P.depth + 1)
        (Function.update s X
          ⟨(s X).data, (CountHashSet.remove (s X).upper P).1⟩) P m
        = pathsE (P.depth + 1) (eraseEdge E (X, P)) P m :=
      paths_eq_pathsE _ _ hW₁ hnd' hcorr₁ _ P m
    have hstabP : pathsE (P.depth + 1) (eraseEdge E (X, P)) P m
        = pathsE (f + X.depth + 1) (eraseEdge E (X, P)) P m :=
      pathsE_stable (eraseEdge E (X, P)) hlay' (P.depth + 1)
        (f + X.depth + 1) P m (by omega) (by omega)
    have hsm : (s m).data = Fagg (f + X.depth + 1) E m :=
      hdata m _ hEBF
    have hsX : (s X).data = Fagg (f + X.depth + 1) (eraseEdge E (X, P)) X := by
      rw [hdata X _ hEBF,
        Fagg_perm _ E ((X, P) :: eraseEdge E (X, P)) hperm X,
        Fagg_cons_of_depth_gt (eraseEdge E (X, P)) X P hlay' _ X (by omega)]
    have hkey : Fagg (f + X.depth + 1) ((X, P) :: eraseEdge E (X, P)) m
        = Fagg (f + X.depth + 1) (eraseEdge E (X, P)) m
          + (1 + Fagg (f + X.depth + 1) (eraseEdge E (X, P)) X)
            * pathsE (f + X.depth + 1) (eraseEdge E (X, P)) P m :=
      Fagg_insert_edge (eraseEdge E (X, P)) X P hlay' hXP _
        (fun e he => by have := hEBF' e he; omega) _ m
        (fun e he => by have := hEBF' e he; omega)
    have hbig : ((TopTree.child_change countCtx (P.depth + 1)
        (Function.update s X
          ⟨(s X).data, (CountHashSet.remove (s X).upper P).1⟩)
        P (-((s X).data + 1))) m).data
        = Fagg (f + X.depth + 1) (eraseEdge E (X, P)) m := by
      rw [h2, hpathsE, hstabP, hsm,
        Fagg_perm _ E ((X, P) :: eraseEdge E (X, P)) hperm m, hkey, hsX]
      ring
    rw [hbig]
    exact Fagg_stable (eraseEdge E (X, P)) hlay' (f + X.depth + 1) f m
      (fun e he => by have := hEBF' e he; omega)
      (fun e he => by have := hEB e he; omega)

theorem goodInv_runOp (s : TreeState Int) (E : List (NodeId × NodeId))
    (op : Op) (h : GoodInv s E) :
    ∃ E', GoodInv (runOp countCtx s op) E' := by
  rcases op with ⟨p, d, c⟩ | ⟨p, d, c⟩
  · by_cases hcnt : CountHashSet.count (s ⟨c, d + 1⟩).upper ⟨p, d⟩ = 0
    · exact ⟨_, goodInv_add_fresh s E h ⟨c, d + 1⟩ ⟨p, d⟩ rfl hcnt⟩
    · exact ⟨E, goodInv_add_stale s E h ⟨c, d + 1⟩ ⟨p, d⟩ (by omega)⟩
  · by_cases hcnt : CountHashSet.count (s ⟨c, d + 1⟩).upper ⟨p, d⟩ = 1
    · exact ⟨_, goodInv_remove_last s E h ⟨c, d + 1⟩ ⟨p, d⟩ rfl hcnt⟩
    · exact ⟨E, goodInv_remove_not_one s E h ⟨c, d + 1⟩ ⟨p, d⟩ hcnt⟩

theorem goodInv_run :
    ∀ (ops : List Op) (s : TreeState Int) (E : List (NodeId × NodeId)),
      GoodInv s E → ∃ E', GoodInv (run countCtx ops s) E' := by
  intro ops
  induction ops with
  | nil => exact fun s E h => ⟨E, h⟩
  | cons op rest ih =>
    intro s E h
    obtain ⟨E', h'⟩ := goodInv_runOp s E op h
    exact ih (runOp countCtx s op) E' h'

/-- The from-scratch recomputation of an edge list: one add-child
operation per live structural edge, replayed on a fresh forest. -/
def edgeOps (E : List (NodeId × NodeId)) : List Op :=
  E.map (fun e => Op.addChild e.2.item e.2.depth e.1.item)

theorem goodInv_replay :
    ∀ (R : List (NodeId × NodeId)) (s : TreeState Int)
      (E : List (NodeId × NodeId)),
      GoodInv s E → R.Nodup → ELayered R → (∀ e ∈ R, e ∉ E) →
      GoodInv (run countCtx (edgeOps R) s) (R.reverse ++ E) := by
  intro R
  induction R with
  | nil =>
    intro s E h _ _ _
    exact h
  | cons e R ih =>
    intro s E h hnd hlay hdisj
    have hndR : R.Nodup := (List.nodup_cons.1 hnd).2
    have henotR : e ∉ R := (List.nodup_cons.1 hnd).1
    have hlayR : ELayered R := fun e' he' =>
      hlay e' (List.mem_cons_of_mem _ he')
    have hde : e.1.depth = e.2.depth + 1 := hlay e (List.mem_cons_self _ _)
    have he1 : (⟨e.1.item, e.2.depth + 1⟩ : NodeId) = e.1 := by
      rw [← hde]
    have hnotmem : e ∉ E := hdisj e (List.mem_cons_self _ _)
    have hcnt : CountHashSet.count (s e.1).upper e.2 = 0 := by
      by_contra hc
      have hpos : 0 < CountHashSet.count (s e.1).upper e.2 := by omega
      exact hnotmem ((h.2.2.2.1 e.1 e.2).2 hpos)
    have hstep : GoodInv
        (TopTree.add_upper countCtx (e.2.depth + 1) s e.1 e.2)
        ((e.1, e.2) :: E) :=
      goodInv_add_fresh s E h e.1 e.2 hde hcnt
    have hop : runOp countCtx s (Op.addChild e.2.item e.2.depth e.1.item)
        = TopTree.add_upper countCtx (e.2.depth + 1) s e.1 e.2 := by
      have hbase : runOp countCtx s (Op.addChild e.2.item e.2.depth e.1.item)
          = TopTree.add_upper countCtx (e.2.depth + 1) s
              ⟨e.1.item, e.2.depth + 1⟩ e.2 := rfl
      rw [hbase, he1]
    have hdisj' : ∀ e' ∈ R, e' ∉ (e.1, e.2) :: E := by
      intro e' he'
      rw [List.mem_cons]
      push_neg
      constructor
      · intro hh
        apply henotR
        have hmm : (e.1, e.2) ∈ R := by rw [← hh]; exact he'
        exact hmm
      · exact hdisj e' (List.mem_cons_of_mem _ he')
    have hrec := ih (runOp countCtx s (Op.addChild e.2.item e.2.depth e.1.item))
      ((e.1, e.2) :: E) (by rw [hop]; exact hstep) hndR hlayR hdisj'
    have hrun : run countCtx (edgeOps (e :: R)) s
        = run countCtx (edgeOps R)
            (runOp countCtx s (Op.addChild e.2.item e.2.depth e.1.item)) := rfl
    rw [hrun]
    have hlist : (e :: R).reverse ++ E = R.reverse ++ ((e.1, e.2) :: E) := by
      rw [List.reverse_cons, List.append_assoc]
      rfl
    rw [hlist]
    exact hrec

/-- C1 amended (the child-counting policy): for every finite sequence of
add/remove child operations, the info stored at every depth-0 node equals
the aggregate obtained by recomputing from scratch with the same policy —
replaying, on a fresh forest, one add-child operation per live structural
edge, for any duplicate-free enumeration of the live edges.  Since the
operation sequence is universally quantified, the equality holds at every
point of any longer sequence. -/
theorem depth0_info_equals_recompute_from_scratch (ops : List Op)
    (E : List (NodeId × NodeId)) (hnd : E.Nodup)
    (hE : ∀ x p : NodeId, ((x, p) ∈ E ↔
      0 < CountHashSet.count
        ((run countCtx ops (initState countCtx)) x).upper p)) :
    ∀ i : Nat,
      ((run countCtx ops (initState countCtx)) ⟨i, 0⟩).data
        = ((run countCtx (edgeOps E) (initState countCtx)) ⟨i, 0⟩).data := by
  obtain ⟨Es, hG⟩ := goodInv_run ops (initState countCtx) [] goodInv_init
  have hmemiff : ∀ e : NodeId × NodeId, e ∈ E ↔ e ∈ Es := by
    intro e
    rcases e with ⟨x, p⟩
    exact (hE x p).trans (hG.2.2.2.1 x p).symm
  have hperm : E.Perm Es := (List.perm_ext_iff_of_nodup hnd hG.2.1).2 hmemiff
  have hlayE : ELayered E := fun e he => hG.2.2.1 e ((hmemiff e).1 he)
  have hrep := goodInv_replay E (initState countCtx) [] goodInv_init hnd hlayE
    (by intro e _; simp)
  rw [List.append_nil] at hrep
  have hpermR : E.reverse.Perm Es := (List.reverse_perm E).trans hperm
  obtain ⟨f, hf⟩ := exists_EB Es
  have hfR : ∀ e ∈ E.reverse, e.1.depth < f := fun e he =>
    hf e (hpermR.mem_iff.1 he)
  intro i
  rw [hG.2.2.2.2 ⟨i, 0⟩ f hf, hrep.2.2.2.2 ⟨i, 0⟩ f hfR]
  exact Fagg_perm f Es E.reverse hpermR.symm ⟨i, 0⟩

/-- Closed witness for the from-scratch equivalence: after one add-child
operation the single live edge is ((1,1),(0,0)); replaying it on a fresh
forest gives the same depth-0 info. -/
theorem depth0_info_equals_recompute_from_scratch_witness :
    ((run countCtx [Op.addChild 0 0 1] (initState countCtx)) ⟨0, 0⟩).data
      = ((run countCtx (edgeOps [(⟨1, 1⟩, ⟨0, 0⟩)])
          (initState countCtx)) ⟨0, 0⟩).data := by
  refine depth0_info_equals_recompute_from_scratch [Op.addChild 0 0 1]
    [(⟨1, 1⟩, ⟨0, 0⟩)] (by decide) ?_ 0
  have hupp : ∀ x : NodeId,
      ((run countCtx [Op.addChild 0 0 1] (initState countCtx)) x).upper
        = if x = ⟨1, 1⟩ then [(⟨0, 0⟩, 1)] else [] := by
    intro x
    have h0 : run countCtx [Op.addChild 0 0 1] (initState countCtx)
        = TopTree.add_upper countCtx 1 (initState countCtx) ⟨1, 1⟩ ⟨0, 0⟩ :=
      rfl
    rw [h0, add_upper_upper]
    by_cases hx : x = ⟨1, 1⟩
    · rw [if_pos hx, if_pos hx]
      rfl
    · rw [if_neg hx, if_neg hx]
      rfl
  intro x p
  rw [hupp x]
  by_cases hx : x = ⟨1, 1⟩
  · subst hx
    rw [if_pos rfl]
    by_cases hp : p = ⟨0, 0⟩
    · subst hp
      constructor
      · intro _
        rw [CountHashSet.count, if_pos rfl]
        omega
      · intro _
        exact List.mem_singleton.2 rfl
    · constructor
      · intro h
        have := List.mem_singleton.1 h
        exact absurd (congrArg Prod.snd this) hp
      · intro h
        rw [CountHashSet.count, if_neg (fun hh => hp hh.symm)] at h
        rw [CountHashSet.count] at h
        omega
  · rw [if_neg hx]
    constructor
    · intro h
      have := List.mem_singleton.1 h
      exact absurd (congrArg Prod.fst this) hx
    · intro h
      rw [CountHashSet.count] at h
      omega

/-- An aggregation policy implementing the policy interface whose removal
change is always none: a policy for which incremental maintenance is not
equivalent to from-scratch recomputation. -/
def badCtx : AggregationContext Int Int Int Unit where
  dflt := 0
  apply_change := fun i c => (i + c, some c)
  info_to_add_change := fun i => some (i + 1)
  info_to_remove_change := fun _ => none
  info_to_root_info := fun i _ => i
  new_root_info := fun _ => 0
  merge_root_info := fun a b => (a + b, MFlow.cont)

/-- C1 counterexample: not every aggregation policy makes the depth-0
info equal the from-scratch recomputation.  With badCtx, after adding and
then removing child 1 under the depth-0 node 0, no structural edge is
live — the empty list enumerates the live edges — yet the depth-0 node's
incrementally maintained info is 1 while recomputing from scratch over
the empty edge set gives 0. -/
theorem depth0_info_recompute_counterexample :
    (∀ x p : NodeId, ((x, p) ∈ ([] : List (NodeId × NodeId)) ↔
      0 < CountHashSet.count
        ((run badCtx [Op.addChild 0 0 1, Op.removeChild 0 0 1]
          (initState badCtx)) x).upper p)) ∧
    ¬ (((run badCtx [Op.addChild 0 0 1, Op.removeChild 0 0 1]
          (initState badCtx)) ⟨0, 0⟩).data
        = ((run badCtx (edgeOps []) (initState badCtx)) ⟨0, 0⟩).data) := by
  constructor
  · have hupp : ∀ y : NodeId,
        ((run badCtx [Op.addChild 0 0 1, Op.removeChild 0 0 1]
          (initState badCtx)) y).upper = [] := by
      intro y
      have h0 : run badCtx [Op.addChild 0 0 1, Op.removeChild 0 0 1]
          (initState badCtx)
          = TopTree.remove_upper badCtx 1
              (TopTree.add_upper badCtx 1 (initState badCtx) ⟨1, 1⟩ ⟨0, 0⟩)
              ⟨1, 1⟩ ⟨0, 0⟩ := rfl
      have hadd : ∀ z : NodeId,
          ((TopTree.add_upper badCtx 1 (initState badCtx) ⟨1, 1⟩ ⟨0, 0⟩)
            z).upper
          = if z = ⟨1, 1⟩ then [(⟨0, 0⟩, 1)] else [] := by
        intro z
        rw [add_upper_upper]
        by_cases hz : z = ⟨1, 1⟩
        · rw [if_pos hz, if_pos hz]
          rfl
        · rw [if_neg hz, if_neg hz]
          rfl
      rw [h0, remove_upper_upper]
      by_cases hy : y = ⟨1, 1⟩
      · rw [if_pos hy, hadd, if_pos rfl]
        rfl
      · rw [if_neg hy, hadd, if_neg hy]
    intro x p
    rw [hupp x]
    constructor
    · intro h
      exact absurd h (List.not_mem_nil _)
    · intro h
      rw [CountHashSet.count] at h
      omega
  · decide

/-- C8 counterexample: under an arbitrary aggregation policy, add_child
immediately followed by remove_child does not restore the info of the
nodes on the upward propagation path.  With badCtx (info_to_remove_change
is always none, which the policy interface allows), adding child 1 under
the depth-0 node 0 and immediately removing it leaves that parent's info
at 1, while it was 0 before the pair of operations. -/
theorem add_then_remove_child_restores_info_counterexample :
    ¬ (((run badCtx [Op.addChild 0 0 1, Op.removeChild 0 0 1]
          (initState badCtx)) ⟨0, 0⟩).data
        = ((run badCtx [] (initState badCtx)) ⟨0, 0⟩).data) := by
  decide
